import Mathlib

/-!
Verification of the Zulu control-plane core against its specification.

This file contains a shallow embedding, in Lean 4, of the parts of the
repository that the checked claims are about:

* `Attestation` — `src/hardening/attestation.py` (`AttestationAuthority`).
* `OpenClawAdapter` — `src/zulu_openclaw_adapter.py` (`ScopedCredentials`,
  `OpenClawRequest._validate`, `ZuluOpenClawAdapter.dispatch`).
* `AuditChain` — `src/hardening/audit_chain.py` (`append`, `verify`).
* `Watchdog` — `src/watchdog/monitor.py` (one container pass of `monitor`).
* `TaskPlanner` — `src/zulu_task_planner.py` (`TaskDecomposer.decompose`,
  `TaskDecomposer._validate_graph`).
* `TaskExec` — `src/zulu_task_planner.py` (`TaskGraph.get_ready_tasks`,
  `TaskExecutor.execute`).

Modelling conventions:

* `time.time()` values and other clock readings are explicit `ℚ` arguments.
* Cryptographic hash functions (BLAKE3 / SHA-256 fallback) are model
  parameters; where a claim needs collision-freedom the theorem carries an
  injectivity hypothesis, discharged in witnesses by a free (constructor)
  hash.
* ISO-8601 timestamp parsing (`datetime.fromisoformat`) is a model
  parameter `parseTs : String → Option ℚ` returning the epoch reading, or
  `none` when the string does not parse.
* Python dicts keyed by strings are association lists; mutation is explicit
  state passing.
* Network I/O is an oracle: each HTTP attempt's outcome is an input, and
  the number of oracle entries consumed counts the network calls performed.
* Python's `\w` character class is modelled at its ASCII fragment
  (alphanumeric plus underscore); all inputs in the claims are ASCII.
-/

namespace Attestation

/-- One issued nonce, mirroring the `IssuedNonce` dataclass of
`src/hardening/attestation.py`. -/
structure IssuedNonce where
  worker_id : String
  nonce : String
  issued_at : ℚ
  expires_at : ℚ
  used : Bool
deriving DecidableEq

/-- State of an `AttestationAuthority`: the known worker secrets and the
table of issued nonces (a dict keyed by the nonce string). -/
structure AuthState where
  known_workers : List (String × String)
  nonce_ttl : ℚ
  issued : List (String × IssuedNonce)
deriving DecidableEq

/-- Dict lookup `self._issued.get(nonce)`. -/
def lookupNonce (s : AuthState) (nonce : String) : Option IssuedNonce :=
  (s.issued.find? (fun p => p.1 == nonce)).map Prod.snd

/-- Dict membership `worker_id in self.known_workers`. -/
def knownWorker (s : AuthState) (worker_id : String) : Bool :=
  (s.known_workers.find? (fun p => p.1 == worker_id)).isSome

/-- Dict lookup with default `self.known_workers.get(worker_id, "")`. -/
def workerSecret (s : AuthState) (worker_id : String) : String :=
  ((s.known_workers.find? (fun p => p.1 == worker_id)).map Prod.snd).getD ""

/-- `AttestationAuthority.issue_nonce`.  The random nonce produced by
`secrets.token_hex(32)` is an explicit argument; `now` is `time.time()`.
Returns the nonce (or `None` for an unknown worker) and the new state. -/
def issue_nonce (s : AuthState) (worker_id nonce : String) (now : ℚ) :
    Option String × AuthState :=
  if !knownWorker s worker_id then
    (none, s)
  else
    (some nonce,
      { s with issued := (nonce,
          { worker_id := worker_id, nonce := nonce, issued_at := now,
            expires_at := now + s.nonce_ttl, used := false }) :: s.issued })

/-- `_compute_signature(nonce, secret) = hash(nonce + secret)`; the hash is
the model parameter `hsig`. -/
def compute_signature (hsig : String → String) (nonce secret : String) :
    String :=
  hsig (nonce ++ secret)

/-- Marking a nonce record used (`issued.used = True`). -/
def markUsed (s : AuthState) (nonce : String) : AuthState :=
  { s with issued := s.issued.map (fun p =>
      if p.1 == nonce then (p.1, { p.2 with used := true }) else p) }

/-- Deleting a nonce from the table (`del self._issued[nonce]`). -/
def eraseNonce (s : AuthState) (nonce : String) : AuthState :=
  { s with issued := s.issued.filter (fun p => !(p.1 == nonce)) }

/-- `AttestationAuthority._cleanup_expired`. -/
def cleanupExpired (s : AuthState) (now : ℚ) : AuthState :=
  { s with issued := s.issued.filter (fun p => !(decide (now > p.2.expires_at))) }

/-- `AttestationAuthority.verify`: checks in source order — nonce exists,
nonce bound to this worker, not expired (strict `time.time() > expires_at`),
not already used, constant-time signature comparison; on success mark used
and prune expired nonces. -/
def verify (hsig : String → String) (s : AuthState)
    (worker_id nonce signature : String) (now : ℚ) :
    (Bool × String) × AuthState :=
  match lookupNonce s nonce with
  | none => ((false, "nonce_not_found"), s)
  | some issued =>
    if issued.worker_id ≠ worker_id then
      ((false, "nonce_worker_mismatch"), s)
    else if now > issued.expires_at then
      ((false, "nonce_expired"), eraseNonce s nonce)
    else if issued.used then
      ((false, "nonce_already_used"), s)
    else if signature ≠ compute_signature hsig nonce (workerSecret s worker_id) then
      ((false, "signature_mismatch"), s)
    else
      ((true, "ok"), cleanupExpired (markUsed s nonce) now)

end Attestation

namespace OpenClawAdapter

/-- `ScopedCredentials` from `src/zulu_openclaw_adapter.py`.  The
`issued_at` field is the raw ISO-8601 string the dataclass stores. -/
structure ScopedCredentials where
  llm_api_key : Option String
  llm_provider : String
  issued_at : String
  extra : List (String × String)
deriving DecidableEq

/-- `ScopedCredentials.is_expired`: parse `issued_at`; on success compare
the age against the TTL (strictly), on a parse failure report expired.
`parseTs` is the model of `datetime.fromisoformat` (after the `Z`
normalisation) and `now` the current clock reading. -/
def is_expired (parseTs : String → Option ℚ) (c : ScopedCredentials)
    (max_age_seconds : ℚ) (now : ℚ) : Bool :=
  match parseTs c.issued_at with
  | some issued => decide (now - issued > max_age_seconds)
  | none => true

/-- An `OpenClawRequest` before `__post_init__` runs (prompt may still be
`None`).  Integer fields are unbounded as in Python. -/
structure OpenClawRequest where
  task_id : String
  task_type : String
  prompt : Option String
  domain_allowlist : List String
  max_steps : ℤ
  timeout_seconds : ℤ
  credentials : ScopedCredentials
deriving DecidableEq

/-- ASCII fragment of the Python regex class `\w`. -/
def isWordChar (c : Char) : Bool := c.isAlphanum || c == '_'

/-- Character class of the task-id pattern `[\w\-\.]`. -/
def taskIdChar (c : Char) : Bool := isWordChar c || c == '-' || c == '.'

/-- Character class of the domain pattern `[\w\.\-\*]`. -/
def domainChar (c : Char) : Bool := isWordChar c || c == '.' || c == '-' || c == '*'

/-- Python `re.match(r'^[cls]+$', s)` as a boolean: in Python `$` matches
at the end of the string or just before one trailing newline, so a single
trailing `'\n'` is tolerated by the full-match. -/
def pyFullMatch (cls : Char → Bool) (s : String) : Bool :=
  let l := if s.data.getLast? == some '\n' then s.data.dropLast else s.data
  !l.isEmpty && l.all cls

/-- `OpenClawRequest._normalize`: a `None` prompt becomes `""` for PING. -/
def normalizePrompt (r : OpenClawRequest) : OpenClawRequest :=
  if r.prompt == none && r.task_type == "ping" then { r with prompt := some "" }
  else r

/-- Errors collected by `OpenClawRequest._validate`, in source order. -/
def validate (r : OpenClawRequest) : List String :=
  let taskIdErrs :=
    if r.task_id.isEmpty || !pyFullMatch taskIdChar r.task_id then
      ["task_id must be non-empty alphanumeric with -._"]
    else []
  let promptErrs :=
    match r.prompt with
    | none => ["prompt cannot be None for non-ping tasks"]
    | some p =>
      if p.length == 0 && r.task_type != "ping" then
        ["prompt required for non-ping tasks"]
      else if p.length > 100000 then
        ["prompt exceeds 100k character limit"]
      else []
  let domainErrs := r.domain_allowlist.filterMap (fun d =>
    if pyFullMatch domainChar d then none
    else some ("invalid domain pattern: " ++ d))
  let stepErrs :=
    if 1 ≤ r.max_steps ∧ r.max_steps ≤ 50 then [] else ["max_steps must be 1-50"]
  let timeoutErrs :=
    if 5 ≤ r.timeout_seconds ∧ r.timeout_seconds ≤ 3600 then []
    else ["timeout_seconds must be 5-3600"]
  taskIdErrs ++ promptErrs ++ domainErrs ++ stepErrs ++ timeoutErrs

/-- `OpenClawRequest.__post_init__`: normalize, then validate; construction
raises `OpenClawValidationError` exactly when this list is nonempty. -/
def constructErrors (r : OpenClawRequest) : List String :=
  validate (normalizePrompt r)

/-- The fields of an `OpenClawResponse` that the dispatch path inspects. -/
structure OpenClawResponse where
  task_id : String
  status : String
  error : Option String
  error_code : Option String
  steps_taken : ℕ
  elapsed_seconds : ℚ
deriving DecidableEq

/-- Outcome of one `_send_request` attempt: a parsed response, an
`aiohttp.ClientError`, or an `asyncio.TimeoutError`. -/
inductive AttemptOutcome where
  | response (r : OpenClawResponse)
  | clientError (msg : String)
  | timeoutErr
deriving DecidableEq

/-- One entry of the adapter audit log (timestamps abstracted away). -/
structure AuditEntry where
  event : String
  task_id : String
  details : List (String × String)
deriving DecidableEq

/-- `BoundedAuditLog`: a `deque(maxlen=max_size)` plus overflow counter. -/
structure BoundedAuditLog where
  entries : List AuditEntry
  maxSize : ℕ
  overflow : ℕ
deriving DecidableEq

/-- `BoundedAuditLog.append`: deque append with maxlen semantics (oldest
entries drop when full) and the overflow counter bump. -/
def BoundedAuditLog.append (l : BoundedAuditLog) (e : AuditEntry) :
    BoundedAuditLog :=
  { l with
    entries := (l.entries ++ [e]).drop (l.entries.length + 1 - l.maxSize),
    overflow := if l.entries.length == l.maxSize then l.overflow + 1 else l.overflow }

/-- How a `dispatch` call terminates.  `noneReturned` is the Python
fall-through (the attempt loop body never runs, `max_retries = 0`). -/
inductive DispatchResult where
  | ok (r : OpenClawResponse)
  | credentialExpired
  | rejected (reason : String) (code : Option String)
  | connectionFailed (msg : String)
  | timedOut
  | noneReturned
deriving DecidableEq

/-- Observable effects of one `dispatch` call: its result, the audit log
after the call, the back-off sleeps performed, and how many network
attempts (`_send_request` calls) were made. -/
structure DispatchOutcome where
  result : DispatchResult
  audit : BoundedAuditLog
  sleeps : List ℚ
  network_calls : ℕ
deriving DecidableEq

/-- Relevant adapter configuration (`AdapterConfig` env-backed values). -/
structure AdapterConfig where
  max_retries : ℕ
  retry_backoff_base : ℚ
  credential_max_age : ℚ
deriving DecidableEq

/-- The retry loop of `ZuluOpenClawAdapter.dispatch`
(`for attempt in range(1, max_retries + 1)`).  `A` is the network oracle
giving each attempt's outcome; `attempt` is the 1-based loop counter and
`rem` the number of loop iterations left. -/
def goAttempts (A : ℕ → AttemptOutcome) (base : ℚ) (maxRetries : ℕ)
    (tid : String) : ℕ → ℕ → BoundedAuditLog → DispatchOutcome
  | _, 0, log => ⟨.noneReturned, log, [], 0⟩
  | attempt, rem + 1, log =>
    match A attempt with
    | .response r =>
      if r.status == "rejected" then
        ⟨.rejected ((r.error).getD "Unknown rejection") r.error_code,
          log.append ⟨"task_rejected", tid, [("reason", (r.error).getD "")]⟩, [], 1⟩
      else
        ⟨.ok r, log.append ⟨"dispatch_complete", tid, [("status", r.status)]⟩, [], 1⟩
    | .clientError m =>
      let log1 := log.append ⟨"dispatch_retry", tid,
        [("attempt", toString attempt), ("error", m)]⟩
      if attempt < maxRetries then
        let rest := goAttempts A base maxRetries tid (attempt + 1) rem log1
        ⟨rest.result, rest.audit, base * 2 ^ (attempt - 1) :: rest.sleeps,
          rest.network_calls + 1⟩
      else
        ⟨.connectionFailed m, log1, [], 1⟩
    | .timeoutErr =>
      ⟨.timedOut, log.append ⟨"dispatch_timeout", tid, []⟩, [], 1⟩

/-- `ZuluOpenClawAdapter.dispatch`: credential-TTL gate first (audit and
raise with no network traffic), then the `dispatch_start` audit entry and
the retry loop. -/
def dispatch (parseTs : String → Option ℚ) (cfg : AdapterConfig)
    (log : BoundedAuditLog) (req : OpenClawRequest) (now : ℚ)
    (A : ℕ → AttemptOutcome) : DispatchOutcome :=
  if is_expired parseTs req.credentials cfg.credential_max_age now then
    ⟨.credentialExpired, log.append ⟨"credential_expired", req.task_id, []⟩, [], 0⟩
  else
    let log1 := log.append ⟨"dispatch_start", req.task_id,
      [("task_type", req.task_type)]⟩
    goAttempts A cfg.retry_backoff_base cfg.max_retries req.task_id 1
      cfg.max_retries log1

end OpenClawAdapter

namespace AuditChain

/-- The content of one audit record before the chain fields are attached:
timestamp, sequence number, event kind, and the detail key/value map
(`src/hardening/audit_chain.py`, `AuditChain.append`).  Detail keys are
assumed disjoint from the reserved keys `ts`/`seq`/`event`/`prev_hash`/
`hash`/`algo`, which the structural encoding enforces by construction. -/
structure RecordContent where
  ts : String
  seq : ℕ
  event : String
  details : List (String × String)
deriving DecidableEq

/-- One line of the JSONL audit log: the content plus `prev_hash`, `hash`
and the algorithm tag.  `Hv` is the hash-value type of the model hash. -/
structure StoredRecord (Hv : Type) where
  content : RecordContent
  prev_hash : Hv
  hash : Hv
  algo : String
deriving DecidableEq

/-- In-memory chain state: `_prev_hash`, `_seq`, and the log file
contents.  (Merkle windows live in a sibling file and are not consulted by
`verify`, so they are not modelled here.) -/
structure ChainState (Hv : Type) where
  prev : Hv
  seq : ℕ
  records : List (StoredRecord Hv)
deriving DecidableEq

/-- `AuditChain.append`: build the record with the current sequence,
compute `hash_record(record, prev_hash)` (the model hash `H` applied to
the canonical content/previous-hash pair), attach the chain fields, write
the line, and advance the in-memory head. -/
def chainAppend {Hv : Type} (H : RecordContent → Hv → Hv) (algoTag : String)
    (st : ChainState Hv) (ts event : String)
    (details : List (String × String)) : ChainState Hv :=
  let c : RecordContent := { ts := ts, seq := st.seq, event := event, details := details }
  let h := H c st.prev
  { prev := h, seq := st.seq + 1,
    records := st.records ++
      [{ content := c, prev_hash := st.prev, hash := h, algo := algoTag }] }

/-- A fresh chain (no log file yet): head is the genesis hash, next
sequence 0. -/
def freshChain {Hv : Type} (genesis : Hv) : ChainState Hv :=
  { prev := genesis, seq := 0, records := [] }

/-- Append a list of events (timestamp, event kind, details) in order. -/
def appendAll {Hv : Type} (H : RecordContent → Hv → Hv) (algoTag : String)
    (st : ChainState Hv) :
    List (String × String × List (String × String)) → ChainState Hv
  | [] => st
  | e :: es => appendAll H algoTag (chainAppend H algoTag st e.1 e.2.1 e.2.2) es

/-- The record walker of `AuditChain.verify`: starting from the running
previous hash, check `prev_hash`, recompute the record hash with the chain
fields and algorithm tag stripped, and stop at the first mismatch with the
offending record's `seq` field. -/
def verifyFrom {Hv : Type} [DecidableEq Hv] (H : RecordContent → Hv → Hv) :
    Hv → List (StoredRecord Hv) → Bool × Option ℕ
  | _, [] => (true, none)
  | prev, r :: rest =>
    if r.prev_hash ≠ prev then (false, some r.content.seq)
    else if r.hash ≠ H r.content prev then (false, some r.content.seq)
    else verifyFrom H r.hash rest

/-- `AuditChain.verify`: walk the whole file from the genesis constant. -/
def verify {Hv : Type} [DecidableEq Hv] (H : RecordContent → Hv → Hv)
    (genesis : Hv) (st : ChainState Hv) : Bool × Option ℕ :=
  verifyFrom H genesis st.records

/-- An edit of a single field of a stored record (one key of the JSON
object on that line). -/
inductive FieldEdit (Hv : Type) where
  | ts (v : String)
  | seqF (n : ℕ)
  | event (v : String)
  | detail (k v : String)
  | prevHash (h : Hv)
  | hashF (h : Hv)
  | algo (v : String)

/-- Apply a single-field edit to a stored record.  A detail edit rewrites
the value stored under the given detail key. -/
def applyEdit {Hv : Type} (r : StoredRecord Hv) : FieldEdit Hv → StoredRecord Hv
  | .ts v => { r with content := { r.content with ts := v } }
  | .seqF n => { r with content := { r.content with seq := n } }
  | .event v => { r with content := { r.content with event := v } }
  | .detail k v => { r with content := { r.content with
      details := r.content.details.map (fun p => if p.1 == k then (k, v) else p) } }
  | .prevHash h => { r with prev_hash := h }
  | .hashF h => { r with hash := h }
  | .algo v => { r with algo := v }

/-- An edit genuinely changes the record: the new field value differs from
the stored one (for a detail edit, the key is present with a different
value). -/
def Changes {Hv : Type} (r : StoredRecord Hv) : FieldEdit Hv → Prop
  | .ts v => v ≠ r.content.ts
  | .seqF n => n ≠ r.content.seq
  | .event v => v ≠ r.content.event
  | .detail k v => ∃ w, r.content.details.lookup k = some w ∧ v ≠ w
  | .prevHash h => h ≠ r.prev_hash
  | .hashF h => h ≠ r.hash
  | .algo v => v ≠ r.algo

/-- Whether the edit touches the `algo` tag (the one field `verify` pops
without checking). -/
def isAlgoEdit {Hv : Type} : FieldEdit Hv → Bool
  | .algo _ => true
  | _ => false

/-- The free hash used to witness the audit-chain theorems: hashing is a
constructor, hence injective and collision-free by `injection`. -/
inductive FreeHash where
  | genesis
  | node (c : RecordContent) (p : FreeHash)
deriving DecidableEq

/-- The hash at the end of a record list, seen from a starting head
(`prev_hash` the walker would carry after these records). -/
def chainEnd {Hv : Type} (p : Hv) (rs : List (StoredRecord Hv)) : Hv :=
  rs.foldl (fun _ r => r.hash) p

/-- Well-formedness of a stored record list as a hash chain from head
`p`: each record links to the previous hash and carries the recomputed
hash of its own content. -/
def Consistent {Hv : Type} (H : RecordContent → Hv → Hv) :
    Hv → List (StoredRecord Hv) → Prop
  | _, [] => True
  | p, r :: rest => r.prev_hash = p ∧ r.hash = H r.content p ∧
      Consistent H r.hash rest

end AuditChain

namespace Watchdog

/-- A `PolicyViolation` as produced by `PolicyEngine.check`. -/
structure Violation where
  rule : String
  reason : String
  severity : String
deriving DecidableEq

/-- `PolicyEngine.should_kill` for the singleton list `[v]` the monitor
passes: the global `kill_on_violation` flag and a kill-severity check. -/
def should_kill (killOnViolation : Bool) (v : Violation) : Bool :=
  killOnViolation && (v.severity == "kill")

/-- Audit events emitted by `kill_container`: `KILL_TRIGGERED` followed by
`KILL_COMPLETED` or `KILL_FAILED` depending on whether the Docker action
raised. -/
def killEvents (reason : String) (killSucceeds : Bool) :
    List (String × String) :=
  ("KILL_TRIGGERED", reason) ::
    (if killSucceeds then [("KILL_COMPLETED", "")] else [("KILL_FAILED", "")])

/-- Result of one container pass of the monitor loop: audit events in
order, the number of kill actions triggered, and the new sustained-high-CPU
counter for the container. -/
structure PassResult where
  audits : List (String × String)
  kills : ℕ
  consecutive : ℕ
deriving DecidableEq

/-- The `for v in violations` loop of `monitor`: for each kill-severity
violation audit `POLICY_VIOLATION`, and when `should_kill` agrees run
`kill_container` and reset the CPU counter; the `continue` in the source
continues this inner loop.  Returns accumulated events, kill count, and
whether the counter was reset. -/
def violationsPhase (killOnViolation killSucceeds : Bool) :
    List Violation → List (String × String) × ℕ × Bool
  | [] => ([], 0, false)
  | v :: vs =>
    let rest := violationsPhase killOnViolation killSucceeds vs
    if v.severity == "kill" then
      if should_kill killOnViolation v then
        (("POLICY_VIOLATION", v.reason) ::
            killEvents ("Policy violation: " ++ v.reason) killSucceeds ++ rest.1,
          rest.2.1 + 1, true)
      else
        (("POLICY_VIOLATION", v.reason) :: rest.1, rest.2.1, rest.2.2)
    else
      rest

/-- One container pass of the monitor loop (`src/watchdog/monitor.py`,
body of `for container_name in MONITORED_CONTAINERS` once stats are in
hand): the policy-violation loop, then the memory check, then the
sustained-CPU check.  A `continue` in the memory/CPU branches leaves the
container pass; the violation-loop `continue` does not. -/
def containerPass (killOnViolation killSucceeds : Bool)
    (violations : List Violation) (memMb memLimit cpuPct cpuLimit : ℚ)
    (consecutive : ℕ) : PassResult :=
  let vp := violationsPhase killOnViolation killSucceeds violations
  let consec0 := if vp.2.2 then 0 else consecutive
  if memMb > memLimit then
    { audits := vp.1 ++ killEvents "Memory over limit" killSucceeds,
      kills := vp.2.1 + 1, consecutive := 0 }
  else if cpuPct > cpuLimit then
    let count := consec0 + 1
    if count ≥ 3 then
      { audits := vp.1 ++ killEvents "Sustained CPU over limit" killSucceeds,
        kills := vp.2.1 + 1, consecutive := 0 }
    else
      { audits := vp.1, kills := vp.2.1, consecutive := count }
  else
    { audits := vp.1, kills := vp.2.1, consecutive := 0 }

end Watchdog

namespace TaskExec

/-- Task status strings of `PlannedTask.status`. -/
inductive TStatus where
  | pending
  | running
  | completed
  | failed
deriving DecidableEq, Inhabited

/-- The execution-relevant fields of a `PlannedTask`: its id, upstream
ids, and mutable status. -/
structure ETask where
  task_id : String
  depends_on : List String
  status : TStatus
deriving DecidableEq, Inhabited

/-- The ids of completed tasks (`completed_ids` in
`TaskGraph.get_ready_tasks`). -/
def completedIds (g : List ETask) : List String :=
  (g.filter (fun t => t.status == TStatus.completed)).map (fun t => t.task_id)

/-- Readiness of one task: pending and every upstream id completed. -/
def isReady (g : List ETask) (t : ETask) : Bool :=
  t.status == TStatus.pending &&
    t.depends_on.all (fun d => (completedIds g).contains d)

/-- `TaskGraph.get_ready_tasks`, by position: Python returns the task
objects; positions stand for object identity so that duplicate ids keep
their Python semantics. -/
def get_ready_tasks (g : List ETask) : List ℕ :=
  (List.range g.length).filter (fun i => isReady g (g.getD i default))

/-- `TaskGraph.is_complete`. -/
def is_complete (g : List ETask) : Bool :=
  g.all (fun t => t.status == TStatus.completed || t.status == TStatus.failed)

/-- Positions of pending tasks. -/
def pendingIdx (g : List ETask) : List ℕ :=
  (List.range g.length).filter (fun i => (g.getD i default).status == TStatus.pending)

/-- One status assignment (`task.status = ...`) at a position. -/
def setStatusAt (g : List ETask) (i : ℕ) (st : TStatus) : List ETask :=
  g.set i { g.getD i default with status := st }

/-- Replay a list of status-assignment events. -/
def applyEvents (g : List ETask) : List (ℕ × TStatus) → List ETask
  | [] => g
  | e :: es => applyEvents (setStatusAt g e.1 e.2) es

/-- One parallel batch of `_execute_single_task` calls over the ready set:
each coroutine sets `running` synchronously before its first await, so
every `running` assignment precedes every terminal assignment of the
batch; `oracle i` tells whether the dispatch of the task at position `i`
succeeds. -/
def runBatch (oracle : ℕ → Bool) (g : List ETask) (ready : List ℕ) :
    List ETask × List (ℕ × TStatus) :=
  let runEvents := ready.map (fun i => (i, TStatus.running))
  let g1 := applyEvents g runEvents
  let termEvents := ready.map
    (fun i => (i, if oracle i then TStatus.completed else TStatus.failed))
  (applyEvents g1 termEvents, runEvents ++ termEvents)

/-- The main loop of `TaskExecutor.execute`: while the graph is
incomplete, gather ready tasks; when none are ready mark every pending
task failed and stop, otherwise run the ready batch.  Returns the final
graph and the trace of status assignments. -/
def execLoop (oracle : ℕ → Bool) : ℕ → List ETask → List ETask × List (ℕ × TStatus)
  | 0, g => (g, [])
  | fuel + 1, g =>
    if is_complete g then (g, [])
    else
      let ready := get_ready_tasks g
      if ready.isEmpty then
        let evs := (pendingIdx g).map (fun i => (i, TStatus.failed))
        (applyEvents g evs, evs)
      else
        let step := runBatch oracle g ready
        let rest := execLoop oracle fuel step.1
        (rest.1, step.2 ++ rest.2)

end TaskExec

namespace TaskPlanner

/-- The planner-relevant fields of a `PlannedTask` built by
`TaskDecomposer.decompose`. -/
structure PTask where
  task_id : String
  task_type : String
  prompt : String
  depends_on : List String
deriving DecidableEq, Inhabited

/-- One element of the JSON array returned by the decomposition model,
with the `dict.get` defaults of the source already folded in
(`prompt` defaults to `""`, `depends_on` to `[]`). -/
structure TaskData where
  task_type : String
  prompt : String
  depends_on : List ℤ
deriving DecidableEq

/-- The members of the `OpenClawTaskType` enumeration. -/
def validTaskTypes : List String :=
  ["web_research", "document_synthesis", "comparative_analysis",
    "report_drafting", "code_review", "data_extraction", "ping"]

/-- The intent fields `decompose` and `_fallback_task` consult. -/
structure Intent where
  intent_type : String
  needs_clarification : Bool
  raw_input : String
deriving DecidableEq

/-- `PlannerConfig` values used by the decomposer (defaults of the
source: 5 tasks per request). -/
structure PlannerCfg where
  max_tasks_per_request : ℕ
deriving DecidableEq

/-- `IntentType` to `OpenClawTaskType` mapping of `_fallback_task`. -/
def taskTypeMap : String → String
  | "research" => "web_research"
  | "synthesize" => "document_synthesis"
  | "analyze" => "comparative_analysis"
  | "draft" => "report_drafting"
  | "review" => "code_review"
  | "extract" => "data_extraction"
  | _ => "web_research"

/-- `TaskDecomposer._fallback_task`: one task, id `task-0`, no upstreams,
prompt equal to the intent's raw input. -/
def fallback_task (intent : Intent) : PTask :=
  { task_id := "task-0",
    task_type := taskTypeMap intent.intent_type,
    prompt := intent.raw_input,
    depends_on := [] }

/-- Translation of one model element at list index `i`: id `task-N`,
integer dependency indices rendered as `task-<d>` strings, unknown task
types coerced to `web_research`. -/
def buildTask (i : ℕ) (td : TaskData) : PTask :=
  { task_id := "task-" ++ toString i,
    task_type :=
      if validTaskTypes.contains td.task_type then td.task_type
      else "web_research",
    prompt := td.prompt,
    depends_on := td.depends_on.map (fun d => "task-" ++ toString d) }

/-- The task list `decompose` builds before validation: clamp to the
configured maximum, then translate each element. -/
def buildTasks (cfg : PlannerCfg) (data : List TaskData) : List PTask :=
  (data.take cfg.max_tasks_per_request).enum.map (fun p => buildTask p.1 p.2)

/-- All task ids of a graph. -/
def idsOf (tasks : List PTask) : List String := tasks.map (fun t => t.task_id)

/-- The orphaned-dependency scan of `_validate_graph`: first dependency
referencing a non-existent task id, in source order. -/
def orphanErr (tasks : List PTask) : Option String :=
  tasks.findSome? (fun t => t.depends_on.findSome? (fun d =>
    if (idsOf tasks).contains d then none
    else some ("Task " ++ t.task_id ++ " depends on non-existent task " ++ d)))

/-- Dependencies of the task with a given id
(`next((t for t in tasks if t.task_id == task_id), None)`; no task means
no dependencies to follow). -/
def depsOf (tasks : List PTask) (u : String) : List String :=
  ((tasks.find? (fun t => t.task_id == u)).map (fun t => t.depends_on)).getD []

/-- The `for dep in task.depends_on` loop of the DFS `has_cycle`:
`visited`/`stack` are the `visited` and `rec_stack` sets, `next` the
recursive call for unvisited dependencies.  Returns the cycle flag and
the updated visited set, or `none` if the fuel of `next` ran out. -/
def goList (tasks : List PTask)
    (next : String → List String → List String → Option (Bool × List String)) :
    List String → List String → List String → Option (Bool × List String)
  | [], visited, _ => some (false, visited)
  | d :: ds, visited, stack =>
    if visited.contains d then
      if stack.contains d then some (true, visited)
      else goList tasks next ds visited stack
    else
      match next d visited stack with
      | none => none
      | some (true, v) => some (true, v)
      | some (false, v) => goList tasks next ds v stack

/-- The DFS `has_cycle(task_id)` of `_validate_graph`, with explicit fuel:
mark the node visited and grey, walk its dependencies, then drop it from
the grey stack (functionally: the caller keeps its own `stack`).  The fuel
only ever runs out if it is smaller than the number of distinct nodes,
which `fuelFor` rules out. -/
def hasCycleF (tasks : List PTask) :
    ℕ → String → List String → List String → Option (Bool × List String)
  | 0, _, _, _ => none
  | f + 1, u, visited, stack =>
    goList tasks (hasCycleF tasks f) (depsOf tasks u) (u :: visited) (u :: stack)

/-- The driver loop `for task in tasks: if task.task_id not in visited:
if has_cycle(...)` of `_validate_graph`. -/
def runCycle (tasks : List PTask) (fuel : ℕ) :
    List PTask → List String → Option (Bool × List String)
  | [], visited => some (false, visited)
  | t :: ts, visited =>
    if visited.contains t.task_id then runCycle tasks fuel ts visited
    else
      match hasCycleF tasks fuel t.task_id visited [] with
      | none => none
      | some (true, v) => some (true, v)
      | some (false, v) => runCycle tasks fuel ts v

/-- Every node the DFS can ever push: task ids and dependency strings. -/
def universeOf (tasks : List PTask) : List String :=
  tasks.map (fun t => t.task_id) ++ tasks.flatMap (fun t => t.depends_on)

/-- Fuel that can never be exhausted: one more than the node count. -/
def fuelFor (tasks : List PTask) : ℕ := (universeOf tasks).length + 1

/-- `TaskDecomposer._validate_graph`: orphan scan, then the DFS cycle
check over every task.  The outer `Option` is fuel adequacy (always
`some`, see the totality lemma); the inner `Option String` is the Python
return value (`None` means the graph is valid). -/
def validate_graph (tasks : List PTask) : Option (Option String) :=
  match orphanErr tasks with
  | some e => some (some e)
  | none =>
    (runCycle tasks (fuelFor tasks) tasks []).map (fun r =>
      if r.1 then some "Circular dependency detected in task graph" else none)

/-- `TaskDecomposer.decompose`.  `modelOut` is the JSON array returned by
the model (`none` when the provider raised or returned a non-list, which
the source turns into the fallback).  Chitchat and clarification intents
return the empty plan before the model is consulted. -/
def decompose (cfg : PlannerCfg) (intent : Intent)
    (modelOut : Option (List TaskData)) : Option (List PTask) :=
  if intent.intent_type == "chitchat" then some []
  else if intent.needs_clarification then some []
  else
    match modelOut with
    | none => some [fallback_task intent]
    | some data =>
      let tasks := buildTasks cfg data
      if tasks.isEmpty then some [fallback_task intent]
      else
        match validate_graph tasks with
        | none => none
        | some (some _) => some [fallback_task intent]
        | some none => some tasks

/-- The dependency relation of a task list: `u` depends directly on `v`. -/
def DepEdge (tasks : List PTask) (u v : String) : Prop :=
  ∃ t ∈ tasks, t.task_id = u ∧ v ∈ t.depends_on

/-- Every upstream id referenced by any task exists in the graph. -/
def OrphanFree (tasks : List PTask) : Prop :=
  ∀ t ∈ tasks, ∀ d ∈ t.depends_on, d ∈ idsOf tasks

/-- The dependency relation admits no cycle (no nonempty dependency path
from a node back to itself). -/
def Acyclic (tasks : List PTask) : Prop :=
  ∀ u, ¬ Relation.TransGen (DepEdge tasks) u u

/-- Accessibility of a node under the dependency relation: every
dependency path out of it is finite (no reachable cycle through it). -/
def DepAcc (tasks : List PTask) (u : String) : Prop :=
  Acc (fun v w => DepEdge tasks w v) u

/-- The DFS soundness invariant: every black node (visited but not on the
grey stack) is accessible. -/
def Inv (tasks : List PTask) (visited stack : List String) : Prop :=
  ∀ w ∈ visited, w ∉ stack → DepAcc tasks w

/-- Number of universe nodes not yet visited (the DFS fuel measure). -/
def nodeCount (tasks : List PTask) (visited : List String) : ℕ :=
  ((universeOf tasks).dedup.filter (fun x => !visited.contains x)).length

end TaskPlanner

namespace Attestation

/-- After issuing a nonce to a known worker, the issued table carries the
fresh record at its front. -/
theorem issue_nonce_state (s0 : AuthState) (w secret n : String) (t0 : ℚ)
    (hw : s0.known_workers.find? (fun p => p.1 == w) = some (w, secret)) :
    (issue_nonce s0 w n t0).2 =
      { s0 with issued :=
          (n, ⟨w, n, t0, t0 + s0.nonce_ttl, false⟩) :: s0.issued } := by
  simp [issue_nonce, knownWorker, hw]

end Attestation

namespace Attestation

/-- First verification of a freshly issued, unexpired nonce with the
correct signature succeeds and yields the post-success state. -/
theorem verify_fresh_ok (hsig : String → String) (s0 : AuthState)
    (w secret n : String) (t0 t1 : ℚ)
    (hw : s0.known_workers.find? (fun p => p.1 == w) = some (w, secret))
    (h1 : t1 ≤ t0 + s0.nonce_ttl) :
    verify hsig (issue_nonce s0 w n t0).2 w n
        (compute_signature hsig n secret) t1 =
      ((true, "ok"),
        cleanupExpired (markUsed (issue_nonce s0 w n t0).2 n) t1) := by
  rw [issue_nonce_state s0 w secret n t0 hw]
  have hlook : lookupNonce
      { s0 with issued := (n, ⟨w, n, t0, t0 + s0.nonce_ttl, false⟩) :: s0.issued } n =
      some ⟨w, n, t0, t0 + s0.nonce_ttl, false⟩ := by
    simp [lookupNonce]
  have hsec : workerSecret
      { s0 with issued := (n, ⟨w, n, t0, t0 + s0.nonce_ttl, false⟩) :: s0.issued } w = secret := by
    simp [workerSecret, hw]
  have hexp : ¬ (t1 > t0 + s0.nonce_ttl) := not_lt.mpr h1
  simp [verify, hlook, hsec, hexp]

/-- After a successful verification at an unexpired instant, the nonce is
still in the table, bound to the same worker, with its `used` flag set. -/
theorem lookup_after_use (s0 : AuthState) (w secret n : String) (t0 t1 : ℚ)
    (hw : s0.known_workers.find? (fun p => p.1 == w) = some (w, secret))
    (h1 : t1 ≤ t0 + s0.nonce_ttl) :
    lookupNonce (cleanupExpired (markUsed (issue_nonce s0 w n t0).2 n) t1) n =
      some ⟨w, n, t0, t0 + s0.nonce_ttl, true⟩ := by
  rw [issue_nonce_state s0 w secret n t0 hw]
  have hexp : ¬ (t1 > t0 + s0.nonce_ttl) := not_lt.mpr h1
  simp [cleanupExpired, markUsed, lookupNonce, hexp]

/-- C2 (amended): for every nonce issued by the AttestationAuthority to a
known worker, a first verify call with that worker's id, the nonce, and
the signature hash(nonce || secret), performed at or before the nonce's
expiry, returns (true, "ok"); and any second verify call with the same
worker id and nonce, also performed at or before the nonce's expiry,
returns (false, "nonce_already_used") regardless of its signature. -/
theorem c2_nonce_single_use (hsig : String → String) (s0 : AuthState)
    (w secret n sig2 : String) (t0 t1 t2 : ℚ)
    (hw : s0.known_workers.find? (fun p => p.1 == w) = some (w, secret))
    (h1 : t1 ≤ t0 + s0.nonce_ttl) (h2 : t2 ≤ t0 + s0.nonce_ttl) :
    verify hsig (issue_nonce s0 w n t0).2 w n
        (compute_signature hsig n secret) t1 =
      ((true, "ok"), cleanupExpired (markUsed (issue_nonce s0 w n t0).2 n) t1) ∧
    verify hsig (cleanupExpired (markUsed (issue_nonce s0 w n t0).2 n) t1) w n
        sig2 t2 =
      ((false, "nonce_already_used"),
        cleanupExpired (markUsed (issue_nonce s0 w n t0).2 n) t1) := by
  refine ⟨verify_fresh_ok hsig s0 w secret n t0 t1 hw h1, ?_⟩
  have hlook := lookup_after_use s0 w secret n t0 t1 hw h1
  have hexp2 : ¬ (t2 > t0 + s0.nonce_ttl) := not_lt.mpr h2
  simp [verify, hlook, hexp2]

/-- C2 witness: concrete authority with one worker, nonce issued at time 0
with a 60 second TTL, first verify at time 1, second at time 2. -/
theorem c2_nonce_single_use_witness :
    verify id ((issue_nonce ⟨[("w", "sec")], 60, []⟩ "w" "n1" 0).2) "w" "n1"
        (compute_signature id "n1" "sec") 1 =
      ((true, "ok"),
        cleanupExpired (markUsed ((issue_nonce ⟨[("w", "sec")], 60, []⟩ "w" "n1" 0).2) "n1") 1) ∧
    verify id
        (cleanupExpired (markUsed ((issue_nonce ⟨[("w", "sec")], 60, []⟩ "w" "n1" 0).2) "n1") 1)
        "w" "n1" "zzz" 2 =
      ((false, "nonce_already_used"),
        cleanupExpired (markUsed ((issue_nonce ⟨[("w", "sec")], 60, []⟩ "w" "n1" 0).2) "n1") 1) :=
  c2_nonce_single_use id ⟨[("w", "sec")], 60, []⟩ "w" "sec" "n1" "zzz" 0 1 2
    (by decide) ((by norm_num : (1 : ℚ) ≤ 0 + 60)) ((by norm_num : (2 : ℚ) ≤ 0 + 60))

/-- C2 counterexample: as literally stated the claim quantifies over any
second verify call with the same nonce; a second call made after the
expiry instant returns (false, "nonce_expired"), not
(false, "nonce_already_used"), even though the first call (before expiry,
correct signature) returned (true, "ok"). -/
theorem c2_counterexample :
    (verify id ((issue_nonce ⟨[("w", "sec")], 60, []⟩ "w" "n1" 0).2) "w" "n1"
        (compute_signature id "n1" "sec") 1).1 = (true, "ok") ∧
    (verify id
        (verify id ((issue_nonce ⟨[("w", "sec")], 60, []⟩ "w" "n1" 0).2) "w" "n1"
          (compute_signature id "n1" "sec") 1).2
        "w" "n1" (compute_signature id "n1" "sec") 100).1 =
      (false, "nonce_expired") := by
  have hfresh := verify_fresh_ok id ⟨[("w", "sec")], 60, []⟩ "w" "sec" "n1" 0 1
    (by decide) ((by norm_num : (1 : ℚ) ≤ 0 + 60))
  have hlook := lookup_after_use ⟨[("w", "sec")], 60, []⟩ "w" "sec" "n1" 0 1
    (by decide) ((by norm_num : (1 : ℚ) ≤ 0 + 60))
  have hgt : (100 : ℚ) > 0 + 60 := by norm_num
  have hgt2 : (60 : ℚ) < 100 := by norm_num
  refine ⟨by rw [hfresh], ?_⟩
  rw [hfresh]
  simp [verify, hlook, hgt, hgt2]

/-- C9 (amended): a verify call for an issued nonce bound to the calling
worker rejects the nonce as expired (and deletes it) exactly when it is
made strictly after the expiry instant; a call made exactly at the expiry
instant does not reject the nonce as expired. -/
theorem c9_expiry_boundary (hsig : String → String) (s : AuthState)
    (w n sig : String) (t : ℚ) (r : IssuedNonce)
    (hlook : lookupNonce s n = some r) (hworker : r.worker_id = w) :
    (t > r.expires_at →
      verify hsig s w n sig t = ((false, "nonce_expired"), eraseNonce s n)) ∧
    (t = r.expires_at → (verify hsig s w n sig t).1.2 ≠ "nonce_expired") := by
  constructor
  · intro hgt
    simp [verify, hlook, hworker, hgt]
  · intro heq
    have hexp : ¬ (t > r.expires_at) := by rw [heq]; exact lt_irrefl _
    by_cases hu : r.used
    · simp [verify, hlook, hworker, hexp, hu]
    · by_cases hs : sig = compute_signature hsig n (workerSecret s w)
      · simp [verify, hlook, hworker, hexp, hu, hs]
      · simp [verify, hlook, hworker, hexp, hu, hs]

/-- C9 witness: a nonce issued at time 0 with expiry 60; verifying at
time 61 rejects it as expired, verifying exactly at time 60 does not. -/
theorem c9_expiry_boundary_witness :
    verify id ⟨[("w", "sec")], 60, [("n1", ⟨"w", "n1", 0, 60, false⟩)]⟩
        "w" "n1" "x" 61 =
      ((false, "nonce_expired"),
        eraseNonce ⟨[("w", "sec")], 60, [("n1", ⟨"w", "n1", 0, 60, false⟩)]⟩ "n1") ∧
    (verify id ⟨[("w", "sec")], 60, [("n1", ⟨"w", "n1", 0, 60, false⟩)]⟩
        "w" "n1" "x" 60).1.2 ≠ "nonce_expired" :=
  ⟨(c9_expiry_boundary id ⟨[("w", "sec")], 60, [("n1", ⟨"w", "n1", 0, 60, false⟩)]⟩
      "w" "n1" "x" 61 ⟨"w", "n1", 0, 60, false⟩ rfl rfl).1
      ((by norm_num : (61 : ℚ) > 60)),
   (c9_expiry_boundary id ⟨[("w", "sec")], 60, [("n1", ⟨"w", "n1", 0, 60, false⟩)]⟩
      "w" "n1" "x" 60 ⟨"w", "n1", 0, 60, false⟩ rfl rfl).2 rfl⟩

/-- C9 counterexample: a verify call made exactly at the expiry instant
with a valid signature returns (true, "ok") — the nonce is not rejected
as expired, contradicting the claim. -/
theorem c9_counterexample :
    (verify id ⟨[("w", "sec")], 60, [("n1", ⟨"w", "n1", 0, 60, false⟩)]⟩
        "w" "n1" (compute_signature id "n1" "sec") 60).1 = (true, "ok") := by
  have hlook : lookupNonce ⟨[("w", "sec")], 60, [("n1", ⟨"w", "n1", 0, 60, false⟩)]⟩ "n1" =
      some ⟨"w", "n1", 0, 60, false⟩ := rfl
  have hexp : ¬ ((60 : ℚ) > 60) := lt_irrefl _
  simp [verify, hlook, hexp, workerSecret, compute_signature]

end Attestation

namespace OpenClawAdapter

/-- C3: for every dispatch call whose request carries credentials with
issued_at + TTL earlier than now, the call fails with the
credential-expired error before any network activity (zero attempts, no
back-off sleeps), and the only adapter-state change is one appended audit
entry with event "credential_expired". -/
theorem c3_expired_credentials_fail_locally (parseTs : String → Option ℚ)
    (cfg : AdapterConfig) (log : BoundedAuditLog) (req : OpenClawRequest)
    (now : ℚ) (A : ℕ → AttemptOutcome) (t : ℚ)
    (hp : parseTs req.credentials.issued_at = some t)
    (hexp : t + cfg.credential_max_age < now) :
    dispatch parseTs cfg log req now A =
      ⟨.credentialExpired,
        log.append ⟨"credential_expired", req.task_id, []⟩, [], 0⟩ := by
  have h : is_expired parseTs req.credentials cfg.credential_max_age now = true := by
    simp only [is_expired, hp, decide_eq_true_eq]
    linarith
  simp [dispatch, h]

/-- C3 witness: credentials issued at epoch 0 with a 3600 second TTL,
dispatched at epoch 4000 with a network oracle that would answer. -/
theorem c3_expired_credentials_witness :
    dispatch (fun s => if s = "t0" then some 0 else none)
        ⟨3, 1, 3600⟩ ⟨[], 1000, 0⟩
        ⟨"task-1", "web_research", some "p", [], 5, 300,
          ⟨some "k", "anthropic", "t0", []⟩⟩ 4000
        (fun _ => .timeoutErr) =
      ⟨.credentialExpired,
        BoundedAuditLog.append ⟨[], 1000, 0⟩ ⟨"credential_expired", "task-1", []⟩,
        [], 0⟩ :=
  c3_expired_credentials_fail_locally (fun s => if s = "t0" then some 0 else none)
    ⟨3, 1, 3600⟩ ⟨[], 1000, 0⟩
    ⟨"task-1", "web_research", some "p", [], 5, 300,
      ⟨some "k", "anthropic", "t0", []⟩⟩ 4000 (fun _ => .timeoutErr) 0
    rfl ((by norm_num : (0 : ℚ) + 3600 < 4000))

/-- C10: for every ScopedCredentials value whose issued_at string is not
parseable, is_expired returns true for every TTL and every clock reading,
so any dispatch carrying such credentials fails with the
credential-expired error before any network call, appending exactly the
one "credential_expired" audit entry. -/
theorem c10_unparseable_issued_at (parseTs : String → Option ℚ)
    (cfg : AdapterConfig) (log : BoundedAuditLog) (req : OpenClawRequest)
    (now : ℚ) (A : ℕ → AttemptOutcome)
    (hp : parseTs req.credentials.issued_at = none) :
    (∀ ttl t : ℚ, is_expired parseTs req.credentials ttl t = true) ∧
    dispatch parseTs cfg log req now A =
      ⟨.credentialExpired,
        log.append ⟨"credential_expired", req.task_id, []⟩, [], 0⟩ := by
  have h : ∀ ttl t : ℚ, is_expired parseTs req.credentials ttl t = true := by
    intro ttl t
    simp [is_expired, hp]
  exact ⟨h, by simp [dispatch, h]⟩

/-- C10 witness: a credential carrying the unparseable timestamp string
"not-a-timestamp". -/
theorem c10_unparseable_issued_at_witness :
    (∀ ttl t : ℚ, is_expired (fun _ => none)
        ⟨some "k", "anthropic", "not-a-timestamp", []⟩ ttl t = true) ∧
    dispatch (fun _ => none) ⟨3, 1, 3600⟩ ⟨[], 1000, 0⟩
        ⟨"task-2", "ping", some "", [], 1, 10,
          ⟨some "k", "anthropic", "not-a-timestamp", []⟩⟩ 50
        (fun _ => .timeoutErr) =
      ⟨.credentialExpired,
        BoundedAuditLog.append ⟨[], 1000, 0⟩ ⟨"credential_expired", "task-2", []⟩,
        [], 0⟩ :=
  c10_unparseable_issued_at (fun _ => none) ⟨3, 1, 3600⟩ ⟨[], 1000, 0⟩
    ⟨"task-2", "ping", some "", [], 1, 10,
      ⟨some "k", "anthropic", "not-a-timestamp", []⟩⟩ 50 (fun _ => .timeoutErr)
    rfl

end OpenClawAdapter

namespace OpenClawAdapter

/-- Skipping a block of consecutive `ClientError` attempts: the loop
audits a retry, sleeps the exponential back-off `base * 2 ^ (attempt - 1)`
for each failed attempt, and moves on to the next attempt. -/
theorem goAttempts_skip (A : ℕ → AttemptOutcome) (base : ℚ) (maxR : ℕ)
    (tid : String) :
    ∀ (j a : ℕ) (log : BoundedAuditLog), 1 ≤ a → a + j ≤ maxR →
    (∀ i, a ≤ i → i < a + j → ∃ m, A i = .clientError m) →
    ∃ log2,
      (goAttempts A base maxR tid a (maxR + 1 - a) log).result =
        (goAttempts A base maxR tid (a + j) (maxR + 1 - (a + j)) log2).result ∧
      (goAttempts A base maxR tid a (maxR + 1 - a) log).sleeps =
        (List.range j).map (fun i => base * 2 ^ (a + i - 1)) ++
          (goAttempts A base maxR tid (a + j) (maxR + 1 - (a + j)) log2).sleeps ∧
      (goAttempts A base maxR tid a (maxR + 1 - a) log).network_calls =
        (goAttempts A base maxR tid (a + j) (maxR + 1 - (a + j)) log2).network_calls + j := by
  intro j
  induction j with
  | zero =>
    intro a log _ _ _
    exact ⟨log, rfl, by simp, rfl⟩
  | succ j ih =>
    intro a log h1 h2 hA
    obtain ⟨m, hm⟩ := hA a le_rfl (by omega)
    have hlt : a < maxR := by omega
    have hrem : maxR + 1 - a = (maxR - a) + 1 := by omega
    have hrem2 : maxR - a = maxR + 1 - (a + 1) := by omega
    obtain ⟨log2, hres, hsl, hnc⟩ := ih (a + 1)
      (log.append ⟨"dispatch_retry", tid, [("attempt", toString a), ("error", m)]⟩)
      (by omega) (by omega)
      (fun i hi1 hi2 => hA i (by omega) (by omega))
    have hadd : a + (j + 1) = a + 1 + j := by omega
    refine ⟨log2, ?_, ?_, ?_⟩
    · rw [hrem]
      simp only [goAttempts, hm, if_pos hlt]
      rw [hrem2, hadd]
      exact hres
    · have hr : (List.range (j + 1)).map (fun i => base * 2 ^ (a + i - 1)) =
          base * 2 ^ (a - 1) ::
            (List.range j).map (fun i => base * 2 ^ (a + 1 + i - 1)) := by
        rw [List.range_succ_eq_map]
        simp only [List.map_cons, List.map_map]
        refine congrArg₂ List.cons (by norm_num) ?_
        apply List.map_congr_left
        intro i _
        simp only [Function.comp_apply]
        have : a + (i + 1) - 1 = a + 1 + i - 1 := by omega
        rw [this]
      rw [hrem]
      simp only [goAttempts, hm, if_pos hlt]
      rw [hrem2, hadd, hsl, hr]
      simp [List.cons_append]
    · rw [hrem]
      simp only [goAttempts, hm, if_pos hlt]
      rw [hrem2, hadd, hnc]
      omega

end OpenClawAdapter

namespace OpenClawAdapter

/-- A non-rejected response at attempt `k` ends the loop at once. -/
theorem goAttempts_response (A : ℕ → AttemptOutcome) (base : ℚ) (maxR k : ℕ)
    (tid : String) (log : BoundedAuditLog) (r : OpenClawResponse)
    (hk : k ≤ maxR) (hA : A k = .response r)
    (hnr : (r.status == "rejected") = false) :
    goAttempts A base maxR tid k (maxR + 1 - k) log =
      ⟨.ok r, log.append ⟨"dispatch_complete", tid, [("status", r.status)]⟩,
        [], 1⟩ := by
  have hrem : maxR + 1 - k = (maxR - k) + 1 := by omega
  rw [hrem]
  simp [goAttempts, hA, hnr]

/-- A rejected response at attempt `k` raises at once, without retry. -/
theorem goAttempts_rejected (A : ℕ → AttemptOutcome) (base : ℚ) (maxR k : ℕ)
    (tid : String) (log : BoundedAuditLog) (r : OpenClawResponse)
    (hk : k ≤ maxR) (hA : A k = .response r)
    (hr : (r.status == "rejected") = true) :
    goAttempts A base maxR tid k (maxR + 1 - k) log =
      ⟨.rejected ((r.error).getD "Unknown rejection") r.error_code,
        log.append ⟨"task_rejected", tid, [("reason", (r.error).getD "")]⟩,
        [], 1⟩ := by
  have hrem : maxR + 1 - k = (maxR - k) + 1 := by omega
  rw [hrem]
  simp [goAttempts, hA, hr]

/-- A timeout at attempt `k` raises at once, without retry. -/
theorem goAttempts_timeout (A : ℕ → AttemptOutcome) (base : ℚ) (maxR k : ℕ)
    (tid : String) (log : BoundedAuditLog)
    (hk : k ≤ maxR) (hA : A k = .timeoutErr) :
    goAttempts A base maxR tid k (maxR + 1 - k) log =
      ⟨.timedOut, log.append ⟨"dispatch_timeout", tid, []⟩, [], 1⟩ := by
  have hrem : maxR + 1 - k = (maxR - k) + 1 := by omega
  rw [hrem]
  simp [goAttempts, hA]

/-- A client error at the final attempt raises the connection failure. -/
theorem goAttempts_conn_final (A : ℕ → AttemptOutcome) (base : ℚ) (maxR : ℕ)
    (tid : String) (log : BoundedAuditLog) (m : String)
    (hA : A maxR = .clientError m) :
    goAttempts A base maxR tid maxR (maxR + 1 - maxR) log =
      ⟨.connectionFailed m,
        log.append ⟨"dispatch_retry", tid,
          [("attempt", toString maxR), ("error", m)]⟩, [], 1⟩ := by
  have hrem : maxR + 1 - maxR = 0 + 1 := by omega
  rw [hrem]
  simp [goAttempts, hA]

/-- Normalising the back-off exponents produced by the skip lemma. -/
theorem backoff_map (base : ℚ) (n : ℕ) :
    (List.range n).map (fun i => base * 2 ^ (1 + i - 1)) =
      (List.range n).map (fun i => base * 2 ^ i) := by
  apply List.map_congr_left
  intro i _
  have h : 1 + i - 1 = i := by omega
  rw [h]

/-- Under valid credentials, `dispatch` is the retry loop started at
attempt 1 after the `dispatch_start` audit entry. -/
theorem dispatch_loop (parseTs : String → Option ℚ) (cfg : AdapterConfig)
    (log : BoundedAuditLog) (req : OpenClawRequest) (now : ℚ)
    (A : ℕ → AttemptOutcome)
    (hne : is_expired parseTs req.credentials cfg.credential_max_age now = false) :
    dispatch parseTs cfg log req now A =
      goAttempts A cfg.retry_backoff_base cfg.max_retries req.task_id 1
        (cfg.max_retries + 1 - 1)
        (log.append ⟨"dispatch_start", req.task_id,
          [("task_type", req.task_type)]⟩) := by
  simp [dispatch, hne]

end OpenClawAdapter

namespace OpenClawAdapter

/-- C6 (amended): for every dispatch call on the adapter with valid
credentials, connection errors raised by an attempt are retried up to the
configured max_retries with exponential backoff (base times 2^(attempt-1))
before the final connection failure is raised; a timeout error is raised
immediately at the attempt where it occurs, with no further retry; and a
rejection returned by the backend is never retried and is surfaced to the
caller immediately. -/
theorem c6_retry_policy (parseTs : String → Option ℚ) (cfg : AdapterConfig)
    (log : BoundedAuditLog) (req : OpenClawRequest) (now : ℚ)
    (A : ℕ → AttemptOutcome)
    (hne : is_expired parseTs req.credentials cfg.credential_max_age now = false) :
    (∀ k r, 1 ≤ k → k ≤ cfg.max_retries →
      (∀ i, 1 ≤ i → i < k → ∃ m, A i = .clientError m) →
      A k = .response r → (r.status == "rejected") = false →
      (dispatch parseTs cfg log req now A).result = .ok r ∧
      (dispatch parseTs cfg log req now A).network_calls = k ∧
      (dispatch parseTs cfg log req now A).sleeps =
        (List.range (k - 1)).map (fun i => cfg.retry_backoff_base * 2 ^ i)) ∧
    ((∀ i, 1 ≤ i → i ≤ cfg.max_retries → ∃ m, A i = .clientError m) →
      1 ≤ cfg.max_retries →
      (∃ m, A cfg.max_retries = .clientError m ∧
        (dispatch parseTs cfg log req now A).result = .connectionFailed m) ∧
      (dispatch parseTs cfg log req now A).network_calls = cfg.max_retries ∧
      (dispatch parseTs cfg log req now A).sleeps =
        (List.range (cfg.max_retries - 1)).map
          (fun i => cfg.retry_backoff_base * 2 ^ i)) ∧
    (∀ k, 1 ≤ k → k ≤ cfg.max_retries →
      (∀ i, 1 ≤ i → i < k → ∃ m, A i = .clientError m) →
      A k = .timeoutErr →
      (dispatch parseTs cfg log req now A).result = .timedOut ∧
      (dispatch parseTs cfg log req now A).network_calls = k) ∧
    (∀ k r, 1 ≤ k → k ≤ cfg.max_retries →
      (∀ i, 1 ≤ i → i < k → ∃ m, A i = .clientError m) →
      A k = .response r → (r.status == "rejected") = true →
      (dispatch parseTs cfg log req now A).result =
        .rejected ((r.error).getD "Unknown rejection") r.error_code ∧
      (dispatch parseTs cfg log req now A).network_calls = k) := by
  rw [dispatch_loop parseTs cfg log req now A hne]
  set maxR := cfg.max_retries with hmaxR
  set base := cfg.retry_backoff_base with hbase
  set log1 := log.append ⟨"dispatch_start", req.task_id,
    [("task_type", req.task_type)]⟩ with hlog1
  refine ⟨?_, ?_, ?_, ?_⟩
  · intro k r hk1 hk2 herr hA hnr
    obtain ⟨log2, hres, hsl, hnc⟩ :=
      goAttempts_skip A base maxR req.task_id (k - 1) 1 log1 le_rfl
        (by omega) (fun i hi1 hi2 => herr i hi1 (by omega))
    have hk : 1 + (k - 1) = k := by omega
    rw [hk] at hres hsl hnc
    have hend := goAttempts_response A base maxR k req.task_id log2 r hk2 hA hnr
    refine ⟨?_, ?_, ?_⟩
    · rw [hres, hend]
    · rw [hnc, hend]
      show 1 + (k - 1) = k
      omega
    · rw [hsl, hend, backoff_map]
      simp
  · intro herr hmr
    obtain ⟨m, hm⟩ := herr maxR hmr le_rfl
    obtain ⟨log2, hres, hsl, hnc⟩ :=
      goAttempts_skip A base maxR req.task_id (maxR - 1) 1 log1 le_rfl
        (by omega) (fun i hi1 hi2 => herr i hi1 (by omega))
    have hk : 1 + (maxR - 1) = maxR := by omega
    rw [hk] at hres hsl hnc
    have hend := goAttempts_conn_final A base maxR req.task_id log2 m hm
    refine ⟨⟨m, hm, ?_⟩, ?_, ?_⟩
    · rw [hres, hend]
    · rw [hnc, hend]
      show 1 + (maxR - 1) = maxR
      omega
    · rw [hsl, hend, backoff_map]
      simp
  · intro k hk1 hk2 herr hA
    obtain ⟨log2, hres, _, hnc⟩ :=
      goAttempts_skip A base maxR req.task_id (k - 1) 1 log1 le_rfl
        (by omega) (fun i hi1 hi2 => herr i hi1 (by omega))
    have hk : 1 + (k - 1) = k := by omega
    rw [hk] at hres hnc
    have hend := goAttempts_timeout A base maxR k req.task_id log2 hk2 hA
    refine ⟨?_, ?_⟩
    · rw [hres, hend]
    · rw [hnc, hend]
      show 1 + (k - 1) = k
      omega
  · intro k r hk1 hk2 herr hA hr
    obtain ⟨log2, hres, _, hnc⟩ :=
      goAttempts_skip A base maxR req.task_id (k - 1) 1 log1 le_rfl
        (by omega) (fun i hi1 hi2 => herr i hi1 (by omega))
    have hk : 1 + (k - 1) = k := by omega
    rw [hk] at hres hnc
    have hend := goAttempts_rejected A base maxR k req.task_id log2 r hk2 hA hr
    refine ⟨?_, ?_⟩
    · rw [hres, hend]
    · rw [hnc, hend]
      show 1 + (k - 1) = k
      omega

end OpenClawAdapter

namespace OpenClawAdapter

/-- Valid credentials for the sample dispatches: issued at epoch 0,
dispatched at epoch 10 with a 3600 second TTL. -/
theorem sample_not_expired :
    is_expired (fun _ => some 0)
      ⟨some "k", "anthropic", "t0", []⟩ (3600 : ℚ) 10 = false := by
  simp [is_expired]
  norm_num

/-- C6 witness: max_retries 3, backoff base 1; attempt 1 raises a
connection error, attempt 2 returns a completed response: the dispatch
retries once (one back-off sleep of 1 = 1 * 2^0) and succeeds with two
network calls. -/
theorem c6_retry_policy_witness :
    (dispatch (fun _ => some 0) ⟨3, 1, 3600⟩ ⟨[], 1000, 0⟩
        ⟨"task-1", "web_research", some "p", [], 5, 300,
          ⟨some "k", "anthropic", "t0", []⟩⟩ 10
        (fun i => if i = 1 then .clientError "boom"
          else .response ⟨"task-1", "completed", none, none, 1, 2⟩)).result =
      .ok ⟨"task-1", "completed", none, none, 1, 2⟩ ∧
    (dispatch (fun _ => some 0) ⟨3, 1, 3600⟩ ⟨[], 1000, 0⟩
        ⟨"task-1", "web_research", some "p", [], 5, 300,
          ⟨some "k", "anthropic", "t0", []⟩⟩ 10
        (fun i => if i = 1 then .clientError "boom"
          else .response ⟨"task-1", "completed", none, none, 1, 2⟩)).network_calls = 2 ∧
    (dispatch (fun _ => some 0) ⟨3, 1, 3600⟩ ⟨[], 1000, 0⟩
        ⟨"task-1", "web_research", some "p", [], 5, 300,
          ⟨some "k", "anthropic", "t0", []⟩⟩ 10
        (fun i => if i = 1 then .clientError "boom"
          else .response ⟨"task-1", "completed", none, none, 1, 2⟩)).sleeps =
      (List.range 1).map (fun i => (1 : ℚ) * 2 ^ i) :=
  (c6_retry_policy (fun _ => some 0) ⟨3, 1, 3600⟩ ⟨[], 1000, 0⟩
      ⟨"task-1", "web_research", some "p", [], 5, 300,
        ⟨some "k", "anthropic", "t0", []⟩⟩ 10
      (fun i => if i = 1 then .clientError "boom"
        else .response ⟨"task-1", "completed", none, none, 1, 2⟩)
      sample_not_expired).1 2 ⟨"task-1", "completed", none, none, 1, 2⟩
    (by decide) (by decide)
    (by
      intro i hi1 hi2
      have h : i = 1 := by omega
      subst h
      exact ⟨"boom", rfl⟩)
    rfl rfl

/-- C6 counterexample: with max_retries 3 and a network oracle whose first
attempt times out while its second attempt would succeed, the dispatch
raises the timeout after exactly one network call and no back-off sleep —
the timeout error is not retried, contradicting the claim that timeout
errors are retried up to max_retries. -/
theorem c6_counterexample :
    (dispatch (fun _ => some 0) ⟨3, 1, 3600⟩ ⟨[], 1000, 0⟩
        ⟨"task-1", "web_research", some "p", [], 5, 300,
          ⟨some "k", "anthropic", "t0", []⟩⟩ 10
        (fun i => if i = 1 then .timeoutErr
          else .response ⟨"task-1", "completed", none, none, 1, 2⟩)).result =
      .timedOut ∧
    (dispatch (fun _ => some 0) ⟨3, 1, 3600⟩ ⟨[], 1000, 0⟩
        ⟨"task-1", "web_research", some "p", [], 5, 300,
          ⟨some "k", "anthropic", "t0", []⟩⟩ 10
        (fun i => if i = 1 then .timeoutErr
          else .response ⟨"task-1", "completed", none, none, 1, 2⟩)).network_calls = 1 ∧
    (dispatch (fun _ => some 0) ⟨3, 1, 3600⟩ ⟨[], 1000, 0⟩
        ⟨"task-1", "web_research", some "p", [], 5, 300,
          ⟨some "k", "anthropic", "t0", []⟩⟩ 10
        (fun i => if i = 1 then .timeoutErr
          else .response ⟨"task-1", "completed", none, none, 1, 2⟩)).sleeps = [] := by
  have hd : dispatch (fun _ => some 0) ⟨3, 1, 3600⟩ ⟨[], 1000, 0⟩
      ⟨"task-1", "web_research", some "p", [], 5, 300,
        ⟨some "k", "anthropic", "t0", []⟩⟩ 10
      (fun i => if i = 1 then .timeoutErr
        else .response ⟨"task-1", "completed", none, none, 1, 2⟩) =
      ⟨.timedOut,
        BoundedAuditLog.append
          (BoundedAuditLog.append ⟨[], 1000, 0⟩
            ⟨"dispatch_start", "task-1", [("task_type", "web_research")]⟩)
          ⟨"dispatch_timeout", "task-1", []⟩, [], 1⟩ := by
    rw [dispatch_loop (fun _ => some 0) ⟨3, 1, 3600⟩ ⟨[], 1000, 0⟩
      ⟨"task-1", "web_research", some "p", [], 5, 300,
        ⟨some "k", "anthropic", "t0", []⟩⟩ 10
      (fun i => if i = 1 then .timeoutErr
        else .response ⟨"task-1", "completed", none, none, 1, 2⟩)
      sample_not_expired]
    exact goAttempts_timeout _ _ _ 1 _ _ (by decide) rfl
  rw [hd]
  exact ⟨rfl, rfl, rfl⟩

end OpenClawAdapter

namespace OpenClawAdapter

/-- Length of the sample prompt built from `n` repeated characters. -/
theorem replicate_prompt_length (n : ℕ) :
    (String.mk (List.replicate n 'a')).length = n := by
  simp [String.length]

/-- Accepting a well-formed request with any nonempty prompt of at most
100000 characters (the prompt itself is never evaluated). -/
theorem prompt_in_bounds_accepted (p : String) (h0 : p.length ≠ 0)
    (h1 : ¬ p.length > 100000) :
    constructErrors ⟨"t", "web_research", some p,
      [], 5, 300, ⟨none, "anthropic", "t0", []⟩⟩ = [] := by
  have hb : (p.length == 0) = false := by simp [h0]
  show validate ⟨"t", "web_research", some p, [], 5, 300,
    ⟨none, "anthropic", "t0", []⟩⟩ = []
  simp only [validate]
  rw [if_neg (by decide)]
  rw [hb]
  rw [if_neg (by decide)]
  rw [if_neg h1]
  norm_num

/-- Rejecting a request whose prompt exceeds 100000 characters. -/
theorem prompt_too_long_rejected (p : String) (h1 : p.length > 100000) :
    constructErrors ⟨"t", "web_research", some p,
      [], 5, 300, ⟨none, "anthropic", "t0", []⟩⟩ =
      ["prompt exceeds 100k character limit"] := by
  have hb : (p.length == 0) = false := by simp; omega
  show validate ⟨"t", "web_research", some p, [], 5, 300,
    ⟨none, "anthropic", "t0", []⟩⟩ = _
  simp only [validate]
  rw [if_neg (by decide)]
  rw [hb]
  rw [if_neg (by decide)]
  rw [if_pos h1]
  norm_num

/-- C8: the validation behaviour of OpenClawRequest construction at its
boundaries, plus the divergence: a task id consisting of word characters
followed by a single trailing newline — a string containing whitespace —
is accepted, because Python's `$` also matches just before a trailing
newline.  The other documented boundaries behave as claimed: a prompt of
exactly 100000 characters is accepted and one of 100001 rejected; empty,
slash-carrying and space-carrying task ids are rejected; max_steps is
accepted exactly on 1..50 and timeout_seconds on 5..3600; an empty prompt
is permitted only for the ping task type. -/
theorem c8_validation_behaviour :
    constructErrors ⟨"t", "web_research",
        some (String.mk (List.replicate 100000 'a')), [], 5, 300,
        ⟨none, "anthropic", "t0", []⟩⟩ = [] ∧
    constructErrors ⟨"t", "web_research",
        some (String.mk (List.replicate 100001 'a')), [], 5, 300,
        ⟨none, "anthropic", "t0", []⟩⟩ = ["prompt exceeds 100k character limit"] ∧
    constructErrors ⟨"", "web_research", some "p", [], 5, 300,
        ⟨none, "anthropic", "t0", []⟩⟩ =
      ["task_id must be non-empty alphanumeric with -._"] ∧
    constructErrors ⟨"a/b", "web_research", some "p", [], 5, 300,
        ⟨none, "anthropic", "t0", []⟩⟩ =
      ["task_id must be non-empty alphanumeric with -._"] ∧
    constructErrors ⟨"a b", "web_research", some "p", [], 5, 300,
        ⟨none, "anthropic", "t0", []⟩⟩ =
      ["task_id must be non-empty alphanumeric with -._"] ∧
    constructErrors ⟨"t", "web_research", some "p", [], 0, 300,
        ⟨none, "anthropic", "t0", []⟩⟩ = ["max_steps must be 1-50"] ∧
    constructErrors ⟨"t", "web_research", some "p", [], 51, 300,
        ⟨none, "anthropic", "t0", []⟩⟩ = ["max_steps must be 1-50"] ∧
    constructErrors ⟨"t", "web_research", some "p", [], 1, 300,
        ⟨none, "anthropic", "t0", []⟩⟩ = [] ∧
    constructErrors ⟨"t", "web_research", some "p", [], 50, 300,
        ⟨none, "anthropic", "t0", []⟩⟩ = [] ∧
    constructErrors ⟨"t", "web_research", some "p", [], 5, 4,
        ⟨none, "anthropic", "t0", []⟩⟩ = ["timeout_seconds must be 5-3600"] ∧
    constructErrors ⟨"t", "web_research", some "p", [], 5, 3601,
        ⟨none, "anthropic", "t0", []⟩⟩ = ["timeout_seconds must be 5-3600"] ∧
    constructErrors ⟨"t", "web_research", some "p", [], 5, 5,
        ⟨none, "anthropic", "t0", []⟩⟩ = [] ∧
    constructErrors ⟨"t", "web_research", some "p", [], 5, 3600,
        ⟨none, "anthropic", "t0", []⟩⟩ = [] ∧
    constructErrors ⟨"t", "ping", some "", [], 1, 10,
        ⟨none, "anthropic", "t0", []⟩⟩ = [] ∧
    constructErrors ⟨"t", "ping", none, [], 1, 10,
        ⟨none, "anthropic", "t0", []⟩⟩ = [] ∧
    constructErrors ⟨"t", "web_research", some "", [], 5, 300,
        ⟨none, "anthropic", "t0", []⟩⟩ = ["prompt required for non-ping tasks"] ∧
    constructErrors ⟨"abc\n", "web_research", some "p", [], 5, 300,
        ⟨none, "anthropic", "t0", []⟩⟩ = [] := by
  refine ⟨?_, ?_, ?_⟩
  · exact prompt_in_bounds_accepted (String.mk (List.replicate 100000 'a'))
      (by rw [replicate_prompt_length]; omega)
      (by rw [replicate_prompt_length]; omega)
  · exact prompt_too_long_rejected (String.mk (List.replicate 100001 'a'))
      (by rw [replicate_prompt_length]; omega)
  · refine ⟨?_, ?_, ?_, ?_, ?_, ?_, ?_, ?_, ?_, ?_, ?_, ?_, ?_, ?_, ?_⟩ <;> decide

end OpenClawAdapter

namespace Watchdog

/-- C7: the claim says that after a kill-severity policy violation is
audited and its kill action triggered, no further checks run on that
container during the tick.  In the source the `continue` after
`kill_container` continues the inner `for v in violations` loop, not the
container pass, so the memory and CPU checks still run: a container with
one kill-severity violation and memory above the limit is killed twice in
one tick — the policy-violation kill and then the memory kill. -/
theorem c7_kill_does_not_end_pass :
    containerPass true true [⟨"max_runtime_sec", "runtime exceeded", "kill"⟩]
        2000 1024 0 90 0 =
      ⟨[("POLICY_VIOLATION", "runtime exceeded"),
        ("KILL_TRIGGERED", "Policy violation: runtime exceeded"),
        ("KILL_COMPLETED", ""),
        ("KILL_TRIGGERED", "Memory over limit"),
        ("KILL_COMPLETED", "")], 2, 0⟩ := by
  have h1 : (2000 : ℚ) > 1024 := by norm_num
  simp [containerPass, violationsPhase, should_kill, killEvents, h1]

end Watchdog

namespace AuditChain

/-- A consistent record list verifies clean from its head. -/
theorem verifyFrom_of_consistent {Hv : Type} [DecidableEq Hv]
    (H : RecordContent → Hv → Hv) :
    ∀ (rs : List (StoredRecord Hv)) (p : Hv), Consistent H p rs →
      verifyFrom H p rs = (true, none) := by
  intro rs
  induction rs with
  | nil => intro p _; rfl
  | cons r rest ih =>
    intro p hc
    obtain ⟨h1, h2, h3⟩ := hc
    rw [h2] at h3
    simp [verifyFrom, h1, h2, ih _ h3]

/-- The walker head after a consistent prefix is the prefix's chain end. -/
theorem verifyFrom_append {Hv : Type} [DecidableEq Hv]
    (H : RecordContent → Hv → Hv) :
    ∀ (pre rest : List (StoredRecord Hv)) (p : Hv), Consistent H p pre →
      verifyFrom H p (pre ++ rest) = verifyFrom H (chainEnd p pre) rest := by
  intro pre
  induction pre with
  | nil => intro rest p _; rfl
  | cons r pre ih =>
    intro rest p hc
    obtain ⟨h1, h2, h3⟩ := hc
    rw [h2] at h3
    have h4 : chainEnd p (r :: pre) = chainEnd r.hash pre := rfl
    rw [h4, h2]
    simp only [List.cons_append, verifyFrom, h1, h2]
    simp [ih rest (H r.content p) h3]

/-- Splitting a consistent list around a middle record. -/
theorem consistent_split {Hv : Type} (H : RecordContent → Hv → Hv) :
    ∀ (pre : List (StoredRecord Hv)) (r : StoredRecord Hv)
      (post : List (StoredRecord Hv)) (p : Hv),
      Consistent H p (pre ++ r :: post) →
      Consistent H p pre ∧ r.prev_hash = chainEnd p pre ∧
        r.hash = H r.content (chainEnd p pre) := by
  intro pre
  induction pre with
  | nil =>
    intro r post p hc
    obtain ⟨h1, h2, _⟩ := hc
    exact ⟨trivial, h1, h2⟩
  | cons q pre ih =>
    intro r post p hc
    obtain ⟨h1, h2, h3⟩ := hc
    obtain ⟨hc1, hc2, hc3⟩ := ih r post q.hash h3
    exact ⟨⟨h1, h2, hc1⟩, hc2, hc3⟩

/-- Appending one record extends the chain end. -/
theorem chainEnd_append_one {Hv : Type} (p : Hv)
    (rs : List (StoredRecord Hv)) (r : StoredRecord Hv) :
    chainEnd p (rs ++ [r]) = r.hash := by
  simp [chainEnd, List.foldl_append]

/-- Consistency is preserved by appending a correctly linked record. -/
theorem consistent_append_one {Hv : Type} (H : RecordContent → Hv → Hv) :
    ∀ (rs : List (StoredRecord Hv)) (p : Hv) (r : StoredRecord Hv),
      Consistent H p rs → r.prev_hash = chainEnd p rs →
      r.hash = H r.content (chainEnd p rs) →
      Consistent H p (rs ++ [r]) := by
  intro rs
  induction rs with
  | nil => intro p r _ h1 h2; exact ⟨h1, h2, trivial⟩
  | cons q rs ih =>
    intro p r hc h1 h2
    obtain ⟨hq1, hq2, hq3⟩ := hc
    exact ⟨hq1, hq2, ih q.hash r hq3 h1 h2⟩

/-- Invariant of `appendAll`: starting from a consistent state whose head
is the chain end, every run of appends keeps the records consistent and
the head at the chain end. -/
theorem appendAll_invariant {Hv : Type} (H : RecordContent → Hv → Hv)
    (algoTag : String) (genesis : Hv) :
    ∀ (evs : List (String × String × List (String × String)))
      (st : ChainState Hv),
      Consistent H genesis st.records →
      st.prev = chainEnd genesis st.records →
      Consistent H genesis (appendAll H algoTag st evs).records ∧
        (appendAll H algoTag st evs).prev =
          chainEnd genesis (appendAll H algoTag st evs).records := by
  intro evs
  induction evs with
  | nil => intro st h1 h2; exact ⟨h1, h2⟩
  | cons e evs ih =>
    intro st h1 h2
    apply ih
    · apply consistent_append_one H st.records genesis _ h1
      · simp [h2]
      · simp [h2]
    · simp [chainAppend, chainEnd_append_one]

end AuditChain

namespace AuditChain

/-- Rewriting the value under an existing key with a different value
changes the detail list. -/
theorem detail_map_ne (l : List (String × String)) (k v w : String)
    (hw : l.lookup k = some w) (hne : v ≠ w) :
    l.map (fun p => if p.1 == k then (k, v) else p) ≠ l := by
  induction l with
  | nil => simp at hw
  | cons a t ih =>
    obtain ⟨a1, a2⟩ := a
    by_cases h : k = a1
    · subst h
      have hkk : (k == k) = true := by simp
      simp only [List.lookup, hkk] at hw
      have hw2 : a2 = w := by simpa using hw
      subst hw2
      have hmap : (fun p : String × String =>
          if p.1 == k then (k, v) else p) (k, a2) = (k, v) := by simp
      simp only [List.map_cons, hmap]
      intro hcontra
      rw [List.cons.injEq] at hcontra
      exact hne (congrArg Prod.snd hcontra.1)
    · have hb : (k == a1) = false := by
        simp [h]
      have hb2 : (a1 == k) = false := by
        simp
        exact fun hh => h hh.symm
      simp only [List.lookup, hb] at hw
      simp only [List.map_cons, hb2, Bool.false_eq_true, if_false]
      intro hcontra
      rw [List.cons.injEq] at hcontra
      exact ih hw hcontra.2

/-- A tampered record whose content changed while its stored chain fields
did not is caught by the hash recomputation. -/
theorem verify_tamper_content {Hv : Type} [DecidableEq Hv]
    (H : RecordContent → Hv → Hv)
    (hinj : ∀ c₁ p₁ c₂ p₂, H c₁ p₁ = H c₂ p₂ → c₁ = c₂ ∧ p₁ = p₂)
    (q : Hv) (r rt : StoredRecord Hv) (post : List (StoredRecord Hv))
    (hlink : r.prev_hash = q) (hhash : r.hash = H r.content q)
    (hp : rt.prev_hash = r.prev_hash) (hh : rt.hash = r.hash)
    (hcne : rt.content ≠ r.content) :
    verifyFrom H q (rt :: post) = (false, some rt.content.seq) := by
  simp only [verifyFrom]
  rw [if_neg (show ¬ rt.prev_hash ≠ q by rw [hp, hlink]; exact fun h => h rfl)]
  rw [if_pos (show rt.hash ≠ H rt.content q by
    rw [hh, hhash]
    intro heq
    exact hcne ((hinj _ _ _ _ heq).1).symm)]

/-- A tampered `prev_hash` field is caught by the link check. -/
theorem verify_tamper_prev {Hv : Type} [DecidableEq Hv]
    (H : RecordContent → Hv → Hv) (q : Hv) (r rt : StoredRecord Hv)
    (post : List (StoredRecord Hv)) (hlink : r.prev_hash = q)
    (hp : rt.prev_hash ≠ r.prev_hash) :
    verifyFrom H q (rt :: post) = (false, some rt.content.seq) := by
  simp only [verifyFrom]
  rw [if_pos (show rt.prev_hash ≠ q by rw [← hlink]; exact hp)]

/-- A tampered `hash` field is caught by the hash recomputation. -/
theorem verify_tamper_hash {Hv : Type} [DecidableEq Hv]
    (H : RecordContent → Hv → Hv) (q : Hv) (r rt : StoredRecord Hv)
    (post : List (StoredRecord Hv))
    (hlink : r.prev_hash = q) (hhash : r.hash = H r.content q)
    (hp : rt.prev_hash = r.prev_hash) (hcon : rt.content = r.content)
    (hh : rt.hash ≠ r.hash) :
    verifyFrom H q (rt :: post) = (false, some rt.content.seq) := by
  simp only [verifyFrom]
  rw [if_neg (show ¬ rt.prev_hash ≠ q by rw [hp, hlink]; exact fun h => h rfl)]
  rw [if_pos (show rt.hash ≠ H rt.content q by rw [hcon, ← hhash]; exact hh)]

end AuditChain

namespace AuditChain

/-- C1 (amended): for every list of events, appending them to a fresh
AuditChain and then calling verify returns (true, nil); and for the chain
of appended records, editing any single field other than the
hash-algorithm tag of any one record (to a different value) and then
verifying the doctored file returns (false, k), where k is the value of
the edited record's seq field — its sequence number, except when the seq
field itself was the edited one.  The hash is an arbitrary collision-free
function. -/
theorem c1_append_verify_tamper {Hv : Type} [DecidableEq Hv]
    (H : RecordContent → Hv → Hv) (genesis : Hv) (algoTag : String)
    (hinj : ∀ c₁ p₁ c₂ p₂, H c₁ p₁ = H c₂ p₂ → c₁ = c₂ ∧ p₁ = p₂)
    (evs : List (String × String × List (String × String))) :
    verify H genesis (appendAll H algoTag (freshChain genesis) evs) =
      (true, none) ∧
    (∀ (pre : List (StoredRecord Hv)) (r : StoredRecord Hv)
        (post : List (StoredRecord Hv)) (e : FieldEdit Hv),
      (appendAll H algoTag (freshChain genesis) evs).records =
        pre ++ r :: post →
      Changes r e → isAlgoEdit e = false →
      verifyFrom H genesis (pre ++ applyEdit r e :: post) =
        (false, some (applyEdit r e).content.seq)) := by
  have hcons : Consistent H genesis
      (appendAll H algoTag (freshChain genesis) evs).records :=
    (appendAll_invariant H algoTag genesis evs (freshChain genesis)
      trivial rfl).1
  constructor
  · exact verifyFrom_of_consistent H _ genesis hcons
  · intro pre r post e hdecomp hch halgo
    rw [hdecomp] at hcons
    obtain ⟨hpre, hlink, hhash⟩ := consistent_split H pre r post genesis hcons
    rw [verifyFrom_append H pre (applyEdit r e :: post) genesis hpre]
    cases e with
    | ts v =>
      refine verify_tamper_content H hinj _ r _ post hlink hhash rfl rfl ?_
      intro hcontra
      exact hch (congrArg RecordContent.ts hcontra)
    | seqF n =>
      refine verify_tamper_content H hinj _ r _ post hlink hhash rfl rfl ?_
      intro hcontra
      exact hch (congrArg RecordContent.seq hcontra)
    | event v =>
      refine verify_tamper_content H hinj _ r _ post hlink hhash rfl rfl ?_
      intro hcontra
      exact hch (congrArg RecordContent.event hcontra)
    | detail k v =>
      obtain ⟨w, hw, hvw⟩ := hch
      refine verify_tamper_content H hinj _ r _ post hlink hhash rfl rfl ?_
      intro hcontra
      exact detail_map_ne r.content.details k v w hw hvw
        (congrArg RecordContent.details hcontra)
    | prevHash h =>
      exact verify_tamper_prev H _ r _ post hlink hch
    | hashF h =>
      exact verify_tamper_hash H _ r _ post hlink hhash rfl rfl hch
    | algo v =>
      simp [isAlgoEdit] at halgo

end AuditChain

namespace AuditChain

/-- C1 counterexample: on a one-record chain, editing the record's `algo`
field (a genuine change of a single field) leaves verification reporting
(true, nil), because `verify` pops the `algo` key without checking it —
the claim "editing any single field ... returns (false, k)" fails on the
algorithm tag.  The free constructor hash stands in for BLAKE3. -/
theorem c1_counterexample :
    (appendAll FreeHash.node "blake3" (freshChain FreeHash.genesis)
        [("ts0", "EVT", [])]).records =
      [⟨⟨"ts0", 0, "EVT", []⟩, FreeHash.genesis,
        FreeHash.node ⟨"ts0", 0, "EVT", []⟩ FreeHash.genesis, "blake3"⟩] ∧
    applyEdit
        ⟨⟨"ts0", 0, "EVT", []⟩, FreeHash.genesis,
          FreeHash.node ⟨"ts0", 0, "EVT", []⟩ FreeHash.genesis, "blake3"⟩
        (FieldEdit.algo "evil") ≠
      ⟨⟨"ts0", 0, "EVT", []⟩, FreeHash.genesis,
        FreeHash.node ⟨"ts0", 0, "EVT", []⟩ FreeHash.genesis, "blake3"⟩ ∧
    verifyFrom FreeHash.node FreeHash.genesis
        [applyEdit
          ⟨⟨"ts0", 0, "EVT", []⟩, FreeHash.genesis,
            FreeHash.node ⟨"ts0", 0, "EVT", []⟩ FreeHash.genesis, "blake3"⟩
          (FieldEdit.algo "evil")] = (true, none) := by
  refine ⟨rfl, ?_, rfl⟩
  intro h
  have := congrArg StoredRecord.algo h
  simp [applyEdit] at this

/-- C1 witness: a two-record chain under the free hash; verify is clean,
and editing the event field of record 1 makes verification fail exactly
at sequence 1. -/
theorem c1_append_verify_tamper_witness :
    verify FreeHash.node FreeHash.genesis
      (appendAll FreeHash.node "blake3" (freshChain FreeHash.genesis)
        [("t0", "E0", []), ("t1", "E1", [])]) = (true, none) ∧
    verifyFrom FreeHash.node FreeHash.genesis
      [⟨⟨"t0", 0, "E0", []⟩, FreeHash.genesis,
        FreeHash.node ⟨"t0", 0, "E0", []⟩ FreeHash.genesis, "blake3"⟩,
       applyEdit
        ⟨⟨"t1", 1, "E1", []⟩,
          FreeHash.node ⟨"t0", 0, "E0", []⟩ FreeHash.genesis,
          FreeHash.node ⟨"t1", 1, "E1", []⟩
            (FreeHash.node ⟨"t0", 0, "E0", []⟩ FreeHash.genesis), "blake3"⟩
        (FieldEdit.event "TAMPERED")] = (false, some 1) := by
  have hinj : ∀ (c₁ : RecordContent) (p₁ : FreeHash) c₂ p₂,
      FreeHash.node c₁ p₁ = FreeHash.node c₂ p₂ → c₁ = c₂ ∧ p₁ = p₂ := by
    intro c₁ p₁ c₂ p₂ h
    injection h with h1 h2
    exact ⟨h1, h2⟩
  have hmain := c1_append_verify_tamper FreeHash.node FreeHash.genesis
    "blake3" hinj [("t0", "E0", []), ("t1", "E1", [])]
  refine ⟨hmain.1, ?_⟩
  exact hmain.2
    [⟨⟨"t0", 0, "E0", []⟩, FreeHash.genesis,
      FreeHash.node ⟨"t0", 0, "E0", []⟩ FreeHash.genesis, "blake3"⟩]
    ⟨⟨"t1", 1, "E1", []⟩,
      FreeHash.node ⟨"t0", 0, "E0", []⟩ FreeHash.genesis,
      FreeHash.node ⟨"t1", 1, "E1", []⟩
        (FreeHash.node ⟨"t0", 0, "E0", []⟩ FreeHash.genesis), "blake3"⟩
    [] (FieldEdit.event "TAMPERED") rfl (by simp [Changes]) rfl

end AuditChain

namespace TaskExec

/-- Setting a status never changes the length of the task list. -/
theorem length_setStatusAt (g : List ETask) (i : ℕ) (st : TStatus) :
    (setStatusAt g i st).length = g.length := by
  simp [setStatusAt]

/-- Setting a status leaves every task's dependency list unchanged. -/
theorem deps_setStatusAt (g : List ETask) (i : ℕ) (st : TStatus) (j : ℕ) :
    ((setStatusAt g i st).getD j default).depends_on =
      (g.getD j default).depends_on := by
  by_cases h : i = j
  · subst h
    by_cases hl : i < g.length
    · simp [setStatusAt, List.getD_eq_getElem?_getD, List.getElem?_set_self',
        List.getElem?_eq_getElem hl]
    · rw [setStatusAt, List.set_eq_of_length_le (by omega)]
  · simp [setStatusAt, List.getD_eq_getElem?_getD, List.getElem?_set_ne h]

/-- Replaying events leaves every task's dependency list unchanged. -/
theorem deps_applyEvents (evs : List (ℕ × TStatus)) :
    ∀ (g : List ETask) (j : ℕ),
      ((applyEvents g evs).getD j default).depends_on =
        (g.getD j default).depends_on := by
  induction evs with
  | nil => intro g j; rfl
  | cons e evs ih =>
    intro g j
    rw [applyEvents, ih, deps_setStatusAt]

/-- After one status assignment, a task's status is either its old one or
the assigned one. -/
theorem status_setStatusAt (g : List ETask) (i : ℕ) (st : TStatus) (j : ℕ) :
    ((setStatusAt g i st).getD j default).status = (g.getD j default).status ∨
      ((setStatusAt g i st).getD j default).status = st := by
  by_cases h : i = j
  · subst h
    by_cases hl : i < g.length
    · right
      simp [setStatusAt, List.getD_eq_getElem?_getD, List.getElem?_set_self',
        List.getElem?_eq_getElem hl]
    · left
      rw [setStatusAt, List.set_eq_of_length_le (by omega)]
  · left
    simp [setStatusAt, List.getD_eq_getElem?_getD, List.getElem?_set_ne h]

/-- An assignment that neither starts from nor lands on `completed` keeps
the completed-id set unchanged. -/
theorem completedIds_setStatusAt (g : List ETask) (i : ℕ) (st : TStatus)
    (h1 : (g.getD i default).status ≠ TStatus.completed)
    (h2 : st ≠ TStatus.completed) :
    completedIds (setStatusAt g i st) = completedIds g := by
  induction g generalizing i with
  | nil => rfl
  | cons a t ih =>
    cases i with
    | zero =>
      have ha : (a.status == TStatus.completed) = false := by
        simp only [List.getD_cons_zero] at h1
        simp [h1]
      have hb : (st == TStatus.completed) = false := by simp [h2]
      simp [setStatusAt, completedIds, List.filter_cons, ha, hb]
    | succ i =>
      have hstep : setStatusAt (a :: t) (i + 1) st = a :: setStatusAt t i st := by
        simp [setStatusAt]
      rw [hstep]
      have h1t : (t.getD i default).status ≠ TStatus.completed := by
        simpa using h1
      have := ih i h1t
      simp only [completedIds, List.filter_cons] at this ⊢
      by_cases hpa : (a.status == TStatus.completed) = true
      · simp only [hpa, if_pos, List.map_cons]
        rw [show ((List.filter (fun t => t.status == TStatus.completed)
          (setStatusAt t i st)).map (fun t => t.task_id)) =
          ((List.filter (fun t => t.status == TStatus.completed) t).map
            (fun t => t.task_id)) from this]
      · simp only [hpa, Bool.false_eq_true, if_false]
        exact this

/-- Replaying a list of assignments that never target a completed task
and never assign `completed` keeps the completed-id set unchanged. -/
theorem completedIds_applyEvents (evs : List (ℕ × TStatus)) :
    ∀ (g : List ETask),
      (∀ e ∈ evs, e.2 ≠ TStatus.completed ∧
        (g.getD e.1 default).status ≠ TStatus.completed) →
      completedIds (applyEvents g evs) = completedIds g := by
  induction evs with
  | nil => intro g _; rfl
  | cons e evs ih =>
    intro g h
    obtain ⟨he2, he1⟩ := h e (List.mem_cons_self e evs)
    rw [applyEvents, ih (setStatusAt g e.1 e.2) ?_,
      completedIds_setStatusAt g e.1 e.2 he1 he2]
    intro f hf
    obtain ⟨hf2, hf1⟩ := h f (List.mem_cons_of_mem e hf)
    refine ⟨hf2, ?_⟩
    rcases status_setStatusAt g e.1 e.2 f.1 with hcase | hcase
    · rw [hcase]; exact hf1
    · rw [hcase]; exact he2

/-- Membership in the ready set. -/
theorem mem_get_ready (g : List ETask) (i : ℕ) :
    i ∈ get_ready_tasks g ↔
      i < g.length ∧ isReady g (g.getD i default) = true := by
  simp [get_ready_tasks, List.mem_filter, List.mem_range]

/-- What readiness gives: the task is pending and every upstream id is
among the completed ids. -/
theorem isReady_spec (g : List ETask) (t : ETask)
    (h : isReady g t = true) :
    t.status = TStatus.pending ∧ ∀ d ∈ t.depends_on, d ∈ completedIds g := by
  simp only [isReady, Bool.and_eq_true, beq_iff_eq, List.all_eq_true] at h
  refine ⟨h.1, fun d hd => ?_⟩
  have := h.2 d hd
  simpa using this

/-- Replaying an event-list concatenation is replaying in sequence. -/
theorem applyEvents_append (l1 l2 : List (ℕ × TStatus)) :
    ∀ g : List ETask, applyEvents g (l1 ++ l2) = applyEvents (applyEvents g l1) l2 := by
  induction l1 with
  | nil => intro g; rfl
  | cons e l1 ih =>
    intro g
    rw [List.cons_append, applyEvents, applyEvents, ih]

end TaskExec

namespace TaskExec

/-- Safety of the execution loop: whenever the trace records a task
turning `running`, every upstream id of that task is among the completed
ids of the graph state at that instant. -/
theorem exec_safety (oracle : ℕ → Bool) :
    ∀ (fuel : ℕ) (g : List ETask) (j i : ℕ),
      (execLoop oracle fuel g).2[j]? = some (i, TStatus.running) →
      ∀ d ∈ (g.getD i default).depends_on,
        d ∈ completedIds (applyEvents g ((execLoop oracle fuel g).2.take j)) := by
  intro fuel
  induction fuel with
  | zero =>
    intro g j i h
    simp [execLoop] at h
  | succ fuel ih =>
    intro g j i h
    by_cases hc : is_complete g = true
    · rw [show execLoop oracle (fuel + 1) g = (g, []) from by
        simp [execLoop, hc]] at h
      simp at h
    · by_cases hr : (get_ready_tasks g).isEmpty = true
      · rw [show execLoop oracle (fuel + 1) g =
            (applyEvents g ((pendingIdx g).map (fun i => (i, TStatus.failed))),
              (pendingIdx g).map (fun i => (i, TStatus.failed))) from by
          simp [execLoop, hc, hr]] at h
        have hmem := List.getElem?_mem h
        obtain ⟨x, _, hx⟩ := List.mem_map.mp hmem
        exact absurd (congrArg Prod.snd hx) (by simp)
      · have heq : execLoop oracle (fuel + 1) g =
            ((execLoop oracle fuel (runBatch oracle g (get_ready_tasks g)).1).1,
              (runBatch oracle g (get_ready_tasks g)).2 ++
                (execLoop oracle fuel (runBatch oracle g (get_ready_tasks g)).1).2) := by
          simp [execLoop, hc, hr]
        rw [heq] at h ⊢
        dsimp only at h ⊢
        set ready := get_ready_tasks g with hready
        set tr1 := ready.map (fun i => (i, TStatus.running)) with htr1
        set tr2 := ready.map
          (fun i => (i, if oracle i then TStatus.completed else TStatus.failed)) with htr2
        set B := (execLoop oracle fuel (runBatch oracle g ready).1).2 with hB
        have hbatch2 : (runBatch oracle g ready).2 = tr1 ++ tr2 := rfl
        have hbatch1 : (runBatch oracle g ready).1 = applyEvents g (tr1 ++ tr2) := by
          rw [applyEvents_append]
          rfl
        rw [hbatch2] at h ⊢
        have hstable : ∀ j2, j2 ≤ tr1.length →
            completedIds (applyEvents g (tr1.take j2)) = completedIds g := by
          intro j2 _
          apply completedIds_applyEvents
          intro e he
          have he1 : e ∈ tr1 := List.mem_of_mem_take he
          obtain ⟨x, hxmem, hxe⟩ := List.mem_map.mp he1
          obtain ⟨hxl, hxr⟩ := (mem_get_ready g x).mp (by rw [hready] at hxmem; exact hxmem)
          have hpend := (isReady_spec g _ hxr).1
          constructor
          · rw [← hxe]
            simp
          · rw [← hxe]
            simp only
            rw [hpend]
            simp
        by_cases hj1 : j < tr1.length
        · rw [List.append_assoc] at h
          rw [List.getElem?_append, if_pos hj1] at h
          have hidx : ready[j]? = some i := by
            rw [htr1, List.getElem?_map _ ready j] at h
            obtain ⟨a, ha, hae⟩ := Option.map_eq_some'.mp h
            have : a = i := congrArg Prod.fst hae
            rw [← this]
            exact ha
          have himem : i ∈ ready := List.getElem?_mem hidx
          obtain ⟨hil, hir⟩ := (mem_get_ready g i).mp (by rw [hready] at himem; exact himem)
          have hdeps := (isReady_spec g _ hir).2
          rw [List.append_assoc, List.take_append_of_le_length (by omega)]
          rw [hstable j (by omega)]
          exact hdeps
        · by_cases hj2 : j < tr1.length + tr2.length
          · rw [List.append_assoc] at h
            rw [List.getElem?_append, if_neg hj1] at h
            rw [List.getElem?_append, if_pos (by omega)] at h
            have hmem := List.getElem?_mem h
            obtain ⟨x, _, hx⟩ := List.mem_map.mp hmem
            have := congrArg Prod.snd hx
            by_cases ho : oracle x = true
            · rw [ho] at this
              simp at this
            · rw [Bool.not_eq_true] at ho
              rw [ho] at this
              simp at this
          · have hlen : (tr1 ++ tr2).length ≤ j := by
              simp only [List.length_append]
              omega
            rw [List.getElem?_append_right hlen] at h
            rw [hB] at h
            have hih := ih (runBatch oracle g ready).1 (j - (tr1 ++ tr2).length) i h
            have hj' : j = (tr1 ++ tr2).length + (j - (tr1 ++ tr2).length) := by omega
            rw [hj', List.take_append]
            rw [applyEvents_append, ← hbatch1]
            intro d hd
            apply hih
            rw [hbatch1, deps_applyEvents]
            exact hd

end TaskExec

namespace TaskExec

/-- A status assignment at another position changes nothing there. -/
theorem getD_setStatusAt_ne (g : List ETask) (i : ℕ) (st : TStatus) (j : ℕ)
    (h : i ≠ j) :
    (setStatusAt g i st).getD j default = g.getD j default := by
  simp [setStatusAt, List.getD_eq_getElem?_getD, List.getElem?_set_ne h]

/-- An in-range status assignment lands. -/
theorem status_setStatusAt_self (g : List ETask) (i : ℕ) (st : TStatus)
    (hl : i < g.length) :
    ((setStatusAt g i st).getD i default).status = st := by
  simp [setStatusAt, List.getD_eq_getElem?_getD, List.getElem?_set_self',
    List.getElem?_eq_getElem hl]

/-- Events that never target a position leave its task unchanged. -/
theorem getD_applyEvents_untouched (evs : List (ℕ × TStatus)) :
    ∀ (g : List ETask) (i : ℕ), (∀ e ∈ evs, e.1 ≠ i) →
      (applyEvents g evs).getD i default = g.getD i default := by
  induction evs with
  | nil => intro g i _; rfl
  | cons e evs ih =>
    intro g i h
    rw [applyEvents, ih _ _ (fun f hf => h f (List.mem_cons_of_mem e hf)),
      getD_setStatusAt_ne _ _ _ _ (h e (List.mem_cons_self e evs))]

/-- After replaying fail events over a duplicate-free index list, every
listed in-range position carries status failed. -/
theorem status_after_failed_events (idxs : List ℕ) :
    ∀ (g : List ETask) (i : ℕ), idxs.Nodup → i ∈ idxs → i < g.length →
      ((applyEvents g (idxs.map (fun k => (k, TStatus.failed)))).getD i
        default).status = TStatus.failed := by
  induction idxs with
  | nil => intro g i _ hmem _; simp at hmem
  | cons a t ih =>
    intro g i hnd hmem hl
    rw [List.map_cons, applyEvents]
    rcases List.mem_cons.mp hmem with hia | hit
    · subst hia
      have hnotin : i ∉ t := (List.nodup_cons.mp hnd).1
      have huntouched : ∀ e ∈ t.map (fun k => (k, TStatus.failed)), e.1 ≠ i := by
        intro e he
        obtain ⟨x, hx, hxe⟩ := List.mem_map.mp he
        intro hcontra
        rw [← hxe] at hcontra
        simp at hcontra
        exact hnotin (hcontra ▸ hx)
      rw [getD_applyEvents_untouched _ _ _ huntouched]
      exact status_setStatusAt_self g i TStatus.failed hl
    · have hne : a ≠ i := by
        intro hcontra
        subst hcontra
        exact (List.nodup_cons.mp hnd).1 hit
      refine ih (setStatusAt g a TStatus.failed) i (List.nodup_cons.mp hnd).2 hit ?_
      rw [length_setStatusAt]
      exact hl

end TaskExec

namespace TaskExec

/-- C5: during execution of any task graph, no task ever transitions to
status running unless every task id in its depends_on list has status
completed at that moment (its id is among the completed ids of the graph
state replayed up to that transition); and when the graph is incomplete
and no task is ready, the loop marks every remaining pending task failed
instead of running it — the emitted events are all failures and every
previously pending task ends with status failed. -/
theorem c5_running_needs_completed_deps (oracle : ℕ → Bool) (fuel : ℕ)
    (g : List ETask) :
    (∀ j i, (execLoop oracle fuel g).2[j]? = some (i, TStatus.running) →
      ∀ d ∈ (g.getD i default).depends_on,
        d ∈ completedIds (applyEvents g ((execLoop oracle fuel g).2.take j))) ∧
    (is_complete g = false → get_ready_tasks g = [] →
      execLoop oracle (fuel + 1) g =
        (applyEvents g ((pendingIdx g).map (fun i => (i, TStatus.failed))),
          (pendingIdx g).map (fun i => (i, TStatus.failed))) ∧
      (∀ e ∈ (execLoop oracle (fuel + 1) g).2, e.2 = TStatus.failed) ∧
      (∀ i ∈ pendingIdx g,
        ((execLoop oracle (fuel + 1) g).1.getD i default).status =
          TStatus.failed)) := by
  constructor
  · exact fun j i h => exec_safety oracle fuel g j i h
  · intro hc hready
    have hre : (get_ready_tasks g).isEmpty = true := by
      rw [hready]
      rfl
    have heq : execLoop oracle (fuel + 1) g =
        (applyEvents g ((pendingIdx g).map (fun i => (i, TStatus.failed))),
          (pendingIdx g).map (fun i => (i, TStatus.failed))) := by
      simp [execLoop, hc, hre]
    refine ⟨heq, ?_, ?_⟩
    · intro e he
      rw [heq] at he
      obtain ⟨x, _, hx⟩ := List.mem_map.mp he
      exact (congrArg Prod.snd hx).symm
    · intro i hi
      rw [heq]
      have hnd : (pendingIdx g).Nodup :=
        List.Nodup.filter _ (List.nodup_range _)
      have hl : i < g.length := by
        have := List.of_mem_filter hi
        have hr := List.mem_range.mp (List.mem_of_mem_filter hi)
        exact hr
      exact status_after_failed_events (pendingIdx g) g i hnd hi hl

/-- C5 witness: a two-task chain t0 ← t1 executes t0, then t1 — the
trace starts t1 only after t0 completed; and a graph whose only task
depends on a missing upstream is immediately marked failed. -/
theorem c5_running_needs_completed_deps_witness :
    ("t0" ∈ completedIds (applyEvents
      [⟨"t0", [], TStatus.pending⟩, ⟨"t1", ["t0"], TStatus.pending⟩]
      (((execLoop (fun _ => true) 3
        [⟨"t0", [], TStatus.pending⟩, ⟨"t1", ["t0"], TStatus.pending⟩]).2).take 2))) ∧
    execLoop (fun _ => true) 3 [⟨"t0", ["missing"], TStatus.pending⟩] =
      (applyEvents [⟨"t0", ["missing"], TStatus.pending⟩]
          ((pendingIdx [⟨"t0", ["missing"], TStatus.pending⟩]).map
            (fun i => (i, TStatus.failed))),
        (pendingIdx [⟨"t0", ["missing"], TStatus.pending⟩]).map
          (fun i => (i, TStatus.failed))) := by
  constructor
  · exact (c5_running_needs_completed_deps (fun _ => true) 3
      [⟨"t0", [], TStatus.pending⟩, ⟨"t1", ["t0"], TStatus.pending⟩]).1
      2 1 (by decide) "t0" (by decide)
  · exact ((c5_running_needs_completed_deps (fun _ => true) 2
      [⟨"t0", ["missing"], TStatus.pending⟩]).2 (by decide) (by decide)).1

end TaskExec

namespace TaskPlanner

/-- A pointwise-stronger filter keeps at least as many elements. -/
theorem length_filter_mono {l : List String} {p q : String → Bool}
    (h : ∀ x, q x = true → p x = true) :
    (l.filter q).length ≤ (l.filter p).length := by
  induction l with
  | nil => simp
  | cons a t ih =>
    simp only [List.filter_cons]
    by_cases hq : q a = true
    · rw [hq, h a hq]
      simpa using ih
    · have hq2 : q a = false := by simpa using hq
      rw [hq2]
      by_cases hp : p a = true
      · rw [hp]
        simp only [if_pos, Bool.false_eq_true, if_false]
        calc (List.filter q t).length ≤ (List.filter p t).length := ih
          _ ≤ (a :: List.filter p t).length := by simp
      · have hp2 : p a = false := by simpa using hp
        rw [hp2]
        simpa using ih

/-- Filtering one occurrence out of a duplicate-free list drops the
length by exactly one. -/
theorem length_filter_ne {l : List String} {a : String} (hn : l.Nodup)
    (ha : a ∈ l) :
    (l.filter (fun x => !(x == a))).length + 1 = l.length := by
  induction l with
  | nil => simp at ha
  | cons b t ih =>
    by_cases hba : b = a
    · subst hba
      have hnotin : b ∉ t := (List.nodup_cons.mp hn).1
      have heq : t.filter (fun x => !(x == b)) = t := by
        apply List.filter_eq_self.mpr
        intro x hx
        simp
        intro hcontra
        subst hcontra
        exact hnotin hx
      simp [List.filter_cons, heq]
    · have hmem : a ∈ t := by
        rcases List.mem_cons.mp ha with h1 | h1
        · exact absurd h1.symm hba
        · exact h1
      have hih := ih (List.nodup_cons.mp hn).2 hmem
      simp only [List.filter_cons]
      have hb : (!(b == a)) = true := by simp [hba]
      rw [hb]
      simp only [if_pos]
      simp only [List.length_cons]
      omega

/-- With unique task ids, a dependency edge out of `u` is exactly a
membership in `depsOf tasks u`. -/
theorem mem_depsOf_of_depEdge {tasks : List PTask}
    (hid : (idsOf tasks).Nodup) {u v : String}
    (h : DepEdge tasks u v) : v ∈ depsOf tasks u := by
  obtain ⟨t, ht, htid, hv⟩ := h
  have hfind : (tasks.find? (fun t => t.task_id == u)).isSome := by
    rw [List.find?_isSome]
    exact ⟨t, ht, by simp [htid]⟩
  obtain ⟨t₀, ht₀⟩ := Option.isSome_iff_exists.mp hfind
  have ht₀p : t₀.task_id = u := by
    have := List.find?_some ht₀
    simpa using this
  have ht₀mem : t₀ ∈ tasks := List.mem_of_find?_eq_some ht₀
  have heq : t₀ = t :=
    List.inj_on_of_nodup_map hid ht₀mem ht (ht₀p.trans htid.symm)
  unfold depsOf
  rw [ht₀, heq]
  simpa using hv

/-- Conversely, every membership in `depsOf` is a dependency edge. -/
theorem depEdge_of_mem_depsOf {tasks : List PTask} {u v : String}
    (h : v ∈ depsOf tasks u) : DepEdge tasks u v := by
  unfold depsOf at h
  cases hf : tasks.find? (fun t => t.task_id == u) with
  | none => rw [hf] at h; simp at h
  | some t =>
    rw [hf] at h
    simp at h
    exact ⟨t, List.mem_of_find?_eq_some hf, by simpa using List.find?_some hf, h⟩

/-- If the orphan scan finds nothing, every dependency resolves. -/
theorem orphanFree_of_orphanErr_none {tasks : List PTask}
    (h : orphanErr tasks = none) : OrphanFree tasks := by
  intro t ht d hd
  rw [orphanErr, List.findSome?_eq_none_iff] at h
  have h2 := h t ht
  rw [List.findSome?_eq_none_iff] at h2
  have h3 := h2 d hd
  by_contra hc
  have hcf : (idsOf tasks).contains d = false := by
    simpa [List.elem_iff] using hc
  rw [hcf] at h3
  simp at h3

/-- Dependency strings live in the DFS universe. -/
theorem depsOf_subset_universe {tasks : List PTask} {u d : String}
    (h : d ∈ depsOf tasks u) : d ∈ universeOf tasks := by
  obtain ⟨t, ht, _, hd⟩ := depEdge_of_mem_depsOf h
  unfold universeOf
  rw [List.mem_append]
  exact Or.inr (List.mem_flatMap.mpr ⟨t, ht, hd⟩)

/-- Task ids live in the DFS universe. -/
theorem taskId_mem_universe {tasks : List PTask} {t : PTask}
    (ht : t ∈ tasks) : t.task_id ∈ universeOf tasks := by
  unfold universeOf
  exact List.mem_append.mpr (Or.inl (List.mem_map_of_mem _ ht))

/-- Growing the visited set never increases the unvisited-node count. -/
theorem nodeCount_le_of_subset {tasks : List PTask} {v v' : List String}
    (h : ∀ x ∈ v, x ∈ v') : nodeCount tasks v' ≤ nodeCount tasks v := by
  unfold nodeCount
  apply length_filter_mono
  intro x hx
  have hxv' : x ∉ v' := by
    intro hm
    have hc : v'.contains x = true := List.elem_iff.mpr hm
    rw [hc] at hx
    simp at hx
  have hxv : x ∉ v := fun hm => hxv' (h x hm)
  cases hcv : v.contains x with
  | false => simp
  | true => exact absurd (List.elem_iff.mp hcv) hxv

/-- Visiting a fresh universe node strictly shrinks the unvisited count. -/
theorem nodeCount_cons_lt {tasks : List PTask} {u : String} {v : List String}
    (hu : u ∈ universeOf tasks) (hv : u ∉ v) :
    nodeCount tasks (u :: v) < nodeCount tasks v := by
  unfold nodeCount
  have hmem : u ∈ (universeOf tasks).dedup.filter (fun x => !v.contains x) := by
    rw [List.mem_filter]
    refine ⟨List.mem_dedup.mpr hu, ?_⟩
    cases hcv : v.contains u with
    | false => simp
    | true => exact absurd (List.elem_iff.mp hcv) hv
  have hnd : ((universeOf tasks).dedup.filter (fun x => !v.contains x)).Nodup :=
    ((universeOf tasks).nodup_dedup).filter _
  have hkey := length_filter_ne hnd hmem
  have hsplit : (universeOf tasks).dedup.filter (fun x => !(u :: v).contains x)
      = ((universeOf tasks).dedup.filter (fun x => !v.contains x)).filter
          (fun x => !(x == u)) := by
    rw [List.filter_filter]
    apply List.filter_congr
    intro x _
    show (!(u :: v).contains x) = (!(x == u) && !v.contains x)
    have hcc : (u :: v).contains x = (x == u || v.contains x) := rfl
    rw [hcc, Bool.not_or]
  rw [hsplit]
  omega

/-- An unvisited universe node witnesses a positive unvisited count. -/
theorem nodeCount_pos {tasks : List PTask} {u : String} {v : List String}
    (hu : u ∈ universeOf tasks) (hv : u ∉ v) : 0 < nodeCount tasks v := by
  unfold nodeCount
  apply List.length_pos_of_mem
  show u ∈ _
  rw [List.mem_filter]
  refine ⟨List.mem_dedup.mpr hu, ?_⟩
  cases hcv : v.contains u with
  | false => simp
  | true => exact absurd (List.elem_iff.mp hcv) hv

/-- `goList` only grows the visited set, provided `next` does. -/
theorem goList_mono {tasks : List PTask}
    {next : String → List String → List String → Option (Bool × List String)}
    (hnext : ∀ d v s b v', next d v s = some (b, v') → ∀ x ∈ v, x ∈ v') :
    ∀ ds v s b v', goList tasks next ds v s = some (b, v') →
      ∀ x ∈ v, x ∈ v' := by
  intro ds
  induction ds with
  | nil =>
    intro v s b v' h
    simp only [goList, Option.some.injEq, Prod.mk.injEq] at h
    rw [← h.2]
    exact fun x hx => hx
  | cons d ds ih =>
    intro v s b v' h
    simp only [goList] at h
    by_cases hvis : v.contains d = true
    · rw [if_pos hvis] at h
      by_cases hstk : s.contains d = true
      · rw [if_pos hstk] at h
        simp only [Option.some.injEq, Prod.mk.injEq] at h
        rw [← h.2]
        exact fun x hx => hx
      · rw [if_neg hstk] at h
        exact ih v s b v' h
    · rw [if_neg hvis] at h
      rcases hn : next d v s with _ | ⟨b', v''⟩
      · rw [hn] at h
        simp at h
      · cases b' with
        | true =>
          rw [hn] at h
          simp only [Option.some.injEq, Prod.mk.injEq] at h
          intro x hx
          rw [← h.2]
          exact hnext d v s true v'' hn x hx
        | false =>
          rw [hn] at h
          intro x hx
          exact ih v'' s b v' h x (hnext d v s false v'' hn x hx)

/-- `hasCycleF` grows the visited set and records its start node. -/
theorem hasCycleF_mono {tasks : List PTask} :
    ∀ f u v s b v', hasCycleF tasks f u v s = some (b, v') →
      ∀ x ∈ u :: v, x ∈ v' := by
  intro f
  induction f with
  | zero =>
    intro u v s b v' h
    simp [hasCycleF] at h
  | succ f ih =>
    intro u v s b v' h
    simp only [hasCycleF] at h
    have hnext : ∀ d w s' b' w', hasCycleF tasks f d w s' = some (b', w') →
        ∀ x ∈ w, x ∈ w' :=
      fun d w s' b' w' hh x hx => ih d w s' b' w' hh x (List.mem_cons_of_mem _ hx)
    exact goList_mono hnext (depsOf tasks u) (u :: v) (u :: s) b v' h

/-- `runCycle` only grows the visited set. -/
theorem runCycle_mono {tasks : List PTask} {fuel : ℕ} :
    ∀ ts v b v', runCycle tasks fuel ts v = some (b, v') →
      ∀ x ∈ v, x ∈ v' := by
  intro ts
  induction ts with
  | nil =>
    intro v b v' h
    simp only [runCycle, Option.some.injEq, Prod.mk.injEq] at h
    rw [← h.2]
    exact fun x hx => hx
  | cons t ts ih =>
    intro v b v' h
    simp only [runCycle] at h
    by_cases hvis : v.contains t.task_id = true
    · rw [if_pos hvis] at h
      exact ih v b v' h
    · rw [if_neg hvis] at h
      rcases hn : hasCycleF tasks fuel t.task_id v [] with _ | ⟨b', v''⟩
      · rw [hn] at h
        simp at h
      · cases b' with
        | true =>
          rw [hn] at h
          simp only [Option.some.injEq, Prod.mk.injEq] at h
          intro x hx
          rw [← h.2]
          exact hasCycleF_mono fuel t.task_id v [] true v'' hn x
            (List.mem_cons_of_mem _ hx)
        | false =>
          rw [hn] at h
          intro x hx
          exact ih v'' b v' h x
            (hasCycleF_mono fuel t.task_id v [] false v'' hn x
              (List.mem_cons_of_mem _ hx))

/-- `goList` cannot fail when `next` cannot fail on unvisited universe
nodes within the fuel bound. -/
theorem goList_total {tasks : List PTask} {f : ℕ}
    {next : String → List String → List String → Option (Bool × List String)}
    (hmono : ∀ d v s b v', next d v s = some (b, v') → ∀ x ∈ v, x ∈ v')
    (htot : ∀ d v s, d ∈ universeOf tasks → d ∉ v → nodeCount tasks v ≤ f →
      (next d v s).isSome) :
    ∀ ds v s, (∀ d ∈ ds, d ∈ universeOf tasks) → nodeCount tasks v ≤ f →
      (goList tasks next ds v s).isSome := by
  intro ds
  induction ds with
  | nil =>
    intro v s _ _
    simp [goList]
  | cons d ds ih =>
    intro v s hds hc
    simp only [goList]
    by_cases hvis : v.contains d = true
    · rw [if_pos hvis]
      by_cases hstk : s.contains d = true
      · rw [if_pos hstk]
        simp
      · rw [if_neg hstk]
        exact ih v s (fun x hx => hds x (List.mem_cons_of_mem _ hx)) hc
    · rw [if_neg hvis]
      have hdnv : d ∉ v := fun hmem => hvis (List.elem_iff.mpr hmem)
      have hs := htot d v s (hds d (List.mem_cons_self d ds)) hdnv hc
      rcases hn : next d v s with _ | ⟨b', v''⟩
      · rw [hn] at hs
        simp at hs
      · cases b' with
        | true => simp
        | false =>
          have hsub : ∀ x ∈ v, x ∈ v'' := hmono d v s false v'' hn
          have hc2 : nodeCount tasks v'' ≤ f :=
            le_trans (nodeCount_le_of_subset hsub) hc
          have hgo := ih v'' s (fun x hx => hds x (List.mem_cons_of_mem _ hx)) hc2
          simpa using hgo

/-- With fuel at least the unvisited-node count, the DFS from an
unvisited universe node cannot exhaust its fuel. -/
theorem hasCycleF_total {tasks : List PTask} :
    ∀ f u v s, u ∉ v → u ∈ universeOf tasks → nodeCount tasks v ≤ f →
      (hasCycleF tasks f u v s).isSome := by
  intro f
  induction f with
  | zero =>
    intro u v s huv hu hc
    have hpos := nodeCount_pos hu huv
    omega
  | succ f ih =>
    intro u v s huv hu hc
    simp only [hasCycleF]
    have hlt : nodeCount tasks (u :: v) < nodeCount tasks v :=
      nodeCount_cons_lt hu huv
    have hmono : ∀ d w s' b w', hasCycleF tasks f d w s' = some (b, w') →
        ∀ x ∈ w, x ∈ w' :=
      fun d w s' b w' hh x hx => hasCycleF_mono f d w s' b w' hh x
        (List.mem_cons_of_mem _ hx)
    exact goList_total hmono (fun d w s' hdu hdw hcnt => ih d w s' hdw hdu hcnt)
      (depsOf tasks u) (u :: v) (u :: s)
      (fun d hd => depsOf_subset_universe hd) (by omega)

/-- With the fuel `fuelFor` supplies, the driver loop cannot fail. -/
theorem runCycle_total {tasks : List PTask} :
    ∀ ts v, (∀ t ∈ ts, t ∈ tasks) →
      (runCycle tasks (fuelFor tasks) ts v).isSome := by
  intro ts
  induction ts with
  | nil =>
    intro v _
    simp [runCycle]
  | cons t ts ih =>
    intro v hts
    simp only [runCycle]
    by_cases hvis : v.contains t.task_id = true
    · rw [if_pos hvis]
      exact ih v (fun x hx => hts x (List.mem_cons_of_mem _ hx))
    · rw [if_neg hvis]
      have hcnt : nodeCount tasks v ≤ fuelFor tasks := by
        have h1 : nodeCount tasks v ≤ (universeOf tasks).dedup.length := by
          unfold nodeCount
          exact List.length_filter_le _ _
        have h2 : (universeOf tasks).dedup.length ≤ (universeOf tasks).length :=
          (List.dedup_sublist _).length_le
        unfold fuelFor
        omega
      have hs := hasCycleF_total (fuelFor tasks) t.task_id v []
        (fun hmem => hvis (List.elem_iff.mpr hmem))
        (taskId_mem_universe (hts t (List.mem_cons_self t ts))) hcnt
      rcases hn : hasCycleF tasks (fuelFor tasks) t.task_id v [] with _ | ⟨b', v''⟩
      · rw [hn] at hs
        simp at hs
      · cases b' with
        | true => simp
        | false =>
          have hgo := ih v'' (fun x hx => hts x (List.mem_cons_of_mem _ hx))
          simpa using hgo

/-- A cycle-free `goList` walk preserves the black-node invariant, leaves
every listed dependency visited and off the grey stack, and grows the
visited set, provided `next` preserves the invariant. -/
theorem goList_sound {tasks : List PTask}
    {next : String → List String → List String → Option (Bool × List String)}
    (hmono : ∀ d v s b v', next d v s = some (b, v') → ∀ x ∈ d :: v, x ∈ v')
    (hsound : ∀ d v s v', d ∉ v → (∀ x ∈ s, x ∈ v) → Inv tasks v s →
      next d v s = some (false, v') → Inv tasks v' s) :
    ∀ ds v s v', (∀ x ∈ s, x ∈ v) → Inv tasks v s →
      goList tasks next ds v s = some (false, v') →
      Inv tasks v' s ∧ (∀ d ∈ ds, d ∈ v' ∧ d ∉ s) ∧ (∀ x ∈ v, x ∈ v') := by
  intro ds
  induction ds with
  | nil =>
    intro v s v' hsv hinv h
    simp only [goList, Option.some.injEq, Prod.mk.injEq] at h
    rw [← h.2]
    exact ⟨hinv, by simp, fun x hx => hx⟩
  | cons d ds ih =>
    intro v s v' hsv hinv h
    simp only [goList] at h
    by_cases hvis : v.contains d = true
    · rw [if_pos hvis] at h
      by_cases hstk : s.contains d = true
      · rw [if_pos hstk] at h
        simp at h
      · rw [if_neg hstk] at h
        obtain ⟨hinv', hds, hvv'⟩ := ih v s v' hsv hinv h
        have hdv : d ∈ v := List.elem_iff.mp hvis
        have hds2 : d ∉ s := fun hmem => hstk (List.elem_iff.mpr hmem)
        refine ⟨hinv', ?_, hvv'⟩
        intro x hx
        rcases List.mem_cons.mp hx with h1 | h1
        · subst h1
          exact ⟨hvv' x hdv, hds2⟩
        · exact hds x h1
    · rw [if_neg hvis] at h
      have hdv : d ∉ v := fun hmem => hvis (List.elem_iff.mpr hmem)
      rcases hn : next d v s with _ | ⟨b', v''⟩
      · rw [hn] at h
        simp at h
      · cases b' with
        | true =>
          rw [hn] at h
          simp at h
        | false =>
          rw [hn] at h
          have hinv'' : Inv tasks v'' s := hsound d v s v'' hdv hsv hinv hn
          have hsv'' : ∀ x ∈ s, x ∈ v'' :=
            fun x hx => hmono d v s false v'' hn x
              (List.mem_cons_of_mem _ (hsv x hx))
          obtain ⟨hinv', hds, hvv'⟩ := ih v'' s v' hsv'' hinv'' h
          refine ⟨hinv', ?_,
            fun x hx => hvv' x (hmono d v s false v'' hn x
              (List.mem_cons_of_mem _ hx))⟩
          intro x hx
          rcases List.mem_cons.mp hx with h1 | h1
          · subst h1
            refine ⟨hvv' x (hmono x v s false v'' hn x (List.mem_cons_self x v)), ?_⟩
            intro hxs
            exact hdv (hsv x hxs)
          · exact hds x h1

/-- A cycle-free DFS run from an unvisited node preserves the black-node
invariant with respect to the caller's grey stack; in particular the
start node itself becomes accessible. -/
theorem hasCycleF_sound {tasks : List PTask} (hid : (idsOf tasks).Nodup) :
    ∀ f u v s v', u ∉ v → (∀ x ∈ s, x ∈ v) → Inv tasks v s →
      hasCycleF tasks f u v s = some (false, v') → Inv tasks v' s := by
  intro f
  induction f with
  | zero =>
    intro u v s v' _ _ _ h
    simp [hasCycleF] at h
  | succ f ih =>
    intro u v s v' huv hsv hinv h
    simp only [hasCycleF] at h
    have hmono : ∀ d w s' b w', hasCycleF tasks f d w s' = some (b, w') →
        ∀ x ∈ d :: w, x ∈ w' :=
      fun d w s' b w' hh => hasCycleF_mono f d w s' b w' hh
    have hsv' : ∀ x ∈ u :: s, x ∈ u :: v := by
      intro x hx
      rcases List.mem_cons.mp hx with h1 | h1
      · subst h1
        exact List.mem_cons_self _ _
      · exact List.mem_cons_of_mem _ (hsv x h1)
    have hinv' : Inv tasks (u :: v) (u :: s) := by
      intro w hw hws
      have hwu : w ≠ u := fun he => hws (he ▸ List.mem_cons_self _ _)
      have hwv : w ∈ v := by
        rcases List.mem_cons.mp hw with h1 | h1
        · exact absurd h1 hwu
        · exact h1
      exact hinv w hwv (fun hmem => hws (List.mem_cons_of_mem _ hmem))
    obtain ⟨hinvf, hds, hsub⟩ := goList_sound hmono
      (fun d w s' w' => ih d w s' w') (depsOf tasks u) (u :: v) (u :: s) v'
      hsv' hinv' h
    have huacc : DepAcc tasks u := by
      unfold DepAcc
      refine Acc.intro u ?_
      intro y hy
      have hyd : y ∈ depsOf tasks u := mem_depsOf_of_depEdge hid hy
      obtain ⟨hyv', hys⟩ := hds y hyd
      exact hinvf y hyv' hys
    intro w hw hws
    by_cases hwu : w = u
    · subst hwu
      exact huacc
    · refine hinvf w hw ?_
      intro hmem
      rcases List.mem_cons.mp hmem with h1 | h1
      · exact hwu h1
      · exact hws h1

/-- A cycle-free driver run visits every listed task id and keeps every
visited node accessible. -/
theorem runCycle_sound {tasks : List PTask} (hid : (idsOf tasks).Nodup)
    {fuel : ℕ} :
    ∀ ts v v', Inv tasks v [] →
      runCycle tasks fuel ts v = some (false, v') →
      Inv tasks v' [] ∧ (∀ t ∈ ts, t.task_id ∈ v') ∧ (∀ x ∈ v, x ∈ v') := by
  intro ts
  induction ts with
  | nil =>
    intro v v' hinv h
    simp only [runCycle, Option.some.injEq, Prod.mk.injEq] at h
    rw [← h.2]
    exact ⟨hinv, by simp, fun x hx => hx⟩
  | cons t ts ih =>
    intro v v' hinv h
    simp only [runCycle] at h
    by_cases hvis : v.contains t.task_id = true
    · rw [if_pos hvis] at h
      obtain ⟨h1, h2, h3⟩ := ih v v' hinv h
      refine ⟨h1, ?_, h3⟩
      intro x hx
      rcases List.mem_cons.mp hx with he | he
      · subst he
        exact h3 _ (List.elem_iff.mp hvis)
      · exact h2 x he
    · rw [if_neg hvis] at h
      rcases hn : hasCycleF tasks fuel t.task_id v [] with _ | ⟨b', v''⟩
      · rw [hn] at h
        simp at h
      · cases b' with
        | true =>
          rw [hn] at h
          simp at h
        | false =>
          rw [hn] at h
          have hinv'' : Inv tasks v'' [] :=
            hasCycleF_sound hid fuel t.task_id v [] v''
              (fun hmem => hvis (List.elem_iff.mpr hmem)) (by simp) hinv hn
          obtain ⟨h1, h2, h3⟩ := ih v'' v' hinv'' h
          refine ⟨h1, ?_, fun x hx => h3 x
            (hasCycleF_mono fuel t.task_id v [] false v'' hn x
              (List.mem_cons_of_mem _ hx))⟩
          intro x hx
          rcases List.mem_cons.mp hx with he | he
          · subst he
            exact h3 _ (hasCycleF_mono fuel x.task_id v [] false v'' hn
              x.task_id (List.mem_cons_self _ _))
          · exact h2 x he

/-- Universal accessibility of the dependency relation forbids cycles. -/
theorem acyclic_of_acc {tasks : List PTask}
    (hacc : ∀ u, DepAcc tasks u) : Acyclic tasks := by
  have hwf : WellFounded (fun a b : String => DepEdge tasks b a) :=
    ⟨fun u => hacc u⟩
  have hirr := hwf.transGen.isIrrefl
  intro u hcyc
  exact hirr.irrefl u (Relation.transGen_swap.mpr
    (show Relation.TransGen
      (Function.swap fun a b : String => DepEdge tasks b a) u u from hcyc))

/-- If `_validate_graph` returns `None`, the graph is orphan-free and its
dependency relation is acyclic. -/
theorem validate_graph_sound {tasks : List PTask}
    (hid : (idsOf tasks).Nodup) (h : validate_graph tasks = some none) :
    OrphanFree tasks ∧ Acyclic tasks := by
  unfold validate_graph at h
  rcases ho : orphanErr tasks with _ | e
  · rw [ho] at h
    rcases hr : runCycle tasks (fuelFor tasks) tasks [] with _ | ⟨b, v⟩
    · rw [hr] at h
      simp at h
    · rw [hr] at h
      have hb : b = false := by
        cases b with
        | false => rfl
        | true => simp at h
      rw [hb] at hr
      obtain ⟨hinv, hall, _⟩ := runCycle_sound hid tasks [] v
        (by intro w hw _; simp at hw) hr
      refine ⟨orphanFree_of_orphanErr_none ho, acyclic_of_acc ?_⟩
      intro u
      by_cases hu : ∃ t ∈ tasks, t.task_id = u
      · obtain ⟨t, ht, hteq⟩ := hu
        have hmem := hall t ht
        rw [hteq] at hmem
        exact hinv u hmem (by simp)
      · unfold DepAcc
        refine Acc.intro u ?_
        intro y hy
        unfold DepEdge at hy
        obtain ⟨t, ht, hteq, _⟩ := hy
        exact absurd ⟨t, ht, hteq⟩ hu
  · rw [ho] at h
    simp at h

/-- Ids generated from distinct indices below the default task cap are
distinct. -/
theorem taskId_inj : ∀ i, i < 5 → ∀ j, j < 5 →
    ("task-" ++ toString i = "task-" ++ toString j) → i = j := by decide

/-- The ids `task-0 … task-(n-1)` the decomposer generates under its
default five-task cap never repeat. -/
theorem buildTasks_nodup (data : List TaskData) :
    (idsOf (buildTasks ⟨5⟩ data)).Nodup := by
  have hids : idsOf (buildTasks ⟨5⟩ data) =
      ((data.take 5).enum.map Prod.fst).map (fun i => "task-" ++ toString i) := by
    unfold idsOf buildTasks
    rw [List.map_map, List.map_map]
    rfl
  rw [hids, List.enum_map_fst]
  have hlen : (data.take 5).length ≤ 5 := by
    rw [List.length_take]
    exact min_le_left _ _
  refine (List.nodup_range _).map_on ?_
  intro x hx y hy heq
  have hx5 : x < 5 := lt_of_lt_of_le (List.mem_range.mp hx) hlen
  have hy5 : y < 5 := lt_of_lt_of_le (List.mem_range.mp hy) hlen
  exact taskId_inj x hx5 y hy5 heq

/-- A graph none of whose tasks declares dependencies has no edge, hence
no cycle. -/
theorem acyclic_of_no_deps {tasks : List PTask}
    (h : ∀ t ∈ tasks, t.depends_on = []) : Acyclic tasks := by
  have hne : ∀ u v, ¬ DepEdge tasks u v := by
    intro u v he
    unfold DepEdge at he
    obtain ⟨t, ht, _, hv⟩ := he
    rw [h t ht] at hv
    simp at hv
  intro u hcyc
  cases hcyc with
  | single he => exact hne _ _ he
  | tail _ he => exact hne _ _ he

/-- A graph none of whose tasks declares dependencies is orphan-free. -/
theorem orphanFree_of_no_deps {tasks : List PTask}
    (h : ∀ t ∈ tasks, t.depends_on = []) : OrphanFree tasks := by
  intro t ht d hd
  rw [h t ht] at hd
  simp at hd

/-- The singleton fallback plan declares no dependencies. -/
theorem fallback_no_deps (intent : Intent) :
    ∀ t ∈ [fallback_task intent], t.depends_on = [] := by
  intro t ht
  rw [List.mem_singleton.mp ht]
  rfl

/-- C4: for every intent and every decomposition result returned by the
model, the task list `decompose` emits is orphan-free (every upstream id
in every task's `depends_on` exists among the emitted tasks) and its
dependency relation is acyclic; and whenever the model was consulted and
the plan built from its output violates either condition, the emitted
list is the single fallback task, whose prompt is the intent's raw
input. -/
theorem c4_graph_invariants (intent : Intent)
    (modelOut : Option (List TaskData)) :
    ∃ out, decompose ⟨5⟩ intent modelOut = some out ∧
      OrphanFree out ∧ Acyclic out ∧
      (intent.intent_type ≠ "chitchat" → intent.needs_clarification = false →
        ∀ data, modelOut = some data →
        ¬ (OrphanFree (buildTasks ⟨5⟩ data) ∧ Acyclic (buildTasks ⟨5⟩ data)) →
        out = [fallback_task intent] ∧
          (fallback_task intent).prompt = intent.raw_input) := by
  unfold decompose
  by_cases hchit : (intent.intent_type == "chitchat") = true
  · rw [if_pos hchit]
    refine ⟨[], rfl, orphanFree_of_no_deps (by intro t ht; simp at ht),
      acyclic_of_no_deps (by intro t ht; simp at ht), ?_⟩
    intro hne
    exact absurd (by simpa using hchit) hne
  · rw [if_neg hchit]
    by_cases hclar : intent.needs_clarification = true
    · rw [if_pos hclar]
      refine ⟨[], rfl, orphanFree_of_no_deps (by intro t ht; simp at ht),
        acyclic_of_no_deps (by intro t ht; simp at ht), ?_⟩
      intro _ hcl
      rw [hcl] at hclar
      cases hclar
    · rw [if_neg hclar]
      rcases modelOut with _ | data
      · refine ⟨[fallback_task intent], rfl,
          orphanFree_of_no_deps (fallback_no_deps intent),
          acyclic_of_no_deps (fallback_no_deps intent), ?_⟩
        intro _ _ data hdata
        exact Option.noConfusion hdata
      · have hnodup := buildTasks_nodup data
        dsimp only
        by_cases hemp : (buildTasks ⟨5⟩ data).isEmpty = true
        · rw [if_pos hemp]
          refine ⟨[fallback_task intent], rfl,
            orphanFree_of_no_deps (fallback_no_deps intent),
            acyclic_of_no_deps (fallback_no_deps intent), ?_⟩
          intro _ _ data' hdata' hviol
          have hde : data' = data := (Option.some.injEq _ _ ▸ hdata').symm
          subst hde
          have hempty : buildTasks ⟨5⟩ data' = [] := List.isEmpty_iff.mp hemp
          exfalso
          apply hviol
          rw [hempty]
          exact ⟨orphanFree_of_no_deps (by intro t ht; simp at ht),
            acyclic_of_no_deps (by intro t ht; simp at ht)⟩
        · rw [if_neg hemp]
          have htot : (validate_graph (buildTasks ⟨5⟩ data)).isSome := by
            unfold validate_graph
            rcases ho : orphanErr (buildTasks ⟨5⟩ data) with _ | e
            · have hrc := runCycle_total (buildTasks ⟨5⟩ data) []
                (fun t ht => ht)
              rcases hr : runCycle (buildTasks ⟨5⟩ data)
                  (fuelFor (buildTasks ⟨5⟩ data)) (buildTasks ⟨5⟩ data) []
                with _ | p
              · rw [hr] at hrc
                simp at hrc
              · simp
            · simp
          rcases hv : validate_graph (buildTasks ⟨5⟩ data) with _ | r
          · rw [hv] at htot
            simp at htot
          · rcases r with _ | e
            · obtain ⟨hOF, hAC⟩ := validate_graph_sound hnodup hv
              refine ⟨buildTasks ⟨5⟩ data, rfl, hOF, hAC, ?_⟩
              intro _ _ data' hdata' hviol
              have hde : data' = data := (Option.some.injEq _ _ ▸ hdata').symm
              subst hde
              exact absurd ⟨hOF, hAC⟩ hviol
            · refine ⟨[fallback_task intent], rfl,
                orphanFree_of_no_deps (fallback_no_deps intent),
                acyclic_of_no_deps (fallback_no_deps intent), ?_⟩
              intro _ _ data' hdata' hviol
              exact ⟨rfl, rfl⟩

/-- Concrete instance of the C4 theorem: a model plan whose only task
depends on the non-existent `task-3` is replaced by the fallback task,
whose prompt is the raw input. -/
theorem c4_graph_invariants_witness :
    decompose ⟨5⟩ ⟨"research", false, "compare the options"⟩
        (some [⟨"web_research", "p", [3]⟩]) =
      some [fallback_task ⟨"research", false, "compare the options"⟩] ∧
    (fallback_task ⟨"research", false, "compare the options"⟩).prompt =
      "compare the options" := by
  obtain ⟨out, hdec, hOF, hAC, hfb⟩ :=
    c4_graph_invariants ⟨"research", false, "compare the options"⟩
      (some [⟨"web_research", "p", [3]⟩])
  have hviol : ¬ (OrphanFree (buildTasks ⟨5⟩ [⟨"web_research", "p", [3]⟩]) ∧
      Acyclic (buildTasks ⟨5⟩ [⟨"web_research", "p", [3]⟩])) := by
    rintro ⟨hof, -⟩
    have hmem : buildTask 0 ⟨"web_research", "p", [3]⟩ ∈
        buildTasks ⟨5⟩ [⟨"web_research", "p", [3]⟩] := by decide
    have h3 := hof _ hmem "task-3" (by decide)
    revert h3
    decide
  have hout := hfb (by decide) rfl _ rfl hviol
  rw [hout.1] at hdec
  exact ⟨hdec, rfl⟩

end TaskPlanner
